import Mathlib

/-!
# Frontmatter-Variables: verification of the variable resolution engine

Shallow embedding of the core of the Frontmatter-Variables extension
(`src/variableReplacer.ts`, `src/frontmatterParser.ts`, with `src/extension.ts`
holding the type/constant declarations, and `main.js` holding the equivalent
engine of the companion plugin).

Modelling conventions:
* JavaScript's dynamic values are modelled by the tagged variant `JValue`
  (Null / Scalar(string, number, bool) / Sequence / Mapping), the spec's
  StructuredData.  Numbers are modelled as `Int` (the frontmatter values the
  engine manipulates are scalars; float-specific behaviour is out of scope).
* JS object property access is modelled at the StructuredData level: own keys
  only (the parsed frontmatter carries no prototype chain at the spec level;
  the engine's forbidden-key guard is precisely what keeps the prototype chain
  out of reach, and that guard is modelled faithfully).
* An array-valued node supports JS-style property access through canonical
  numeric index strings; a non-index property written onto a Sequence is
  invisible to StructuredData (YAML serialization ignores it), so such writes
  are modelled as leaving the Sequence unchanged.
* `undefined` (absence) is `Option.none`; text is `List Char` internally
  (JS string indices), converted to `String` at the API boundary.
* RegExp matching is modelled by an explicit backtracking matcher specialised
  to the one pattern shape the engine compiles:
  `OPEN \s* ([\w.\[\]\-]+) \s* (?: SEP \s* (.*?) )? \s* CLOSE`
  with JS semantics: leftmost match, greedy `\s*` and name with backtracking,
  optional group preferred present, lazy default capture, `.` excluding line
  terminators.  `\s` is modelled by the ASCII whitespace characters.
-/

/-! ## StructuredData -/

mutual

/-- The spec's StructuredData: Null, Scalar (string/number/bool), Sequence,
Mapping.  Sequences and mappings are mutual inductives rather than nested
`List`s so that structural recursion and induction stay straightforward. -/
inductive JValue where
  | null : JValue
  | bool (b : Bool) : JValue
  | num (n : Int) : JValue
  | str (s : String) : JValue
  | arr (xs : JArr) : JValue
  | obj (fs : JObj) : JValue

/-- A Sequence of StructuredData values. -/
inductive JArr where
  | nil : JArr
  | cons (hd : JValue) (tl : JArr) : JArr

/-- A Mapping from string keys to StructuredData values (insertion order kept,
as JS objects do). -/
inductive JObj where
  | nil : JObj
  | cons (key : String) (val : JValue) (tl : JObj) : JObj

end

/-- Length of a Sequence. -/
def JArr.len : JArr → Nat
  | .nil => 0
  | .cons _ tl => 1 + tl.len

/-- Zero-based element access; `none` when out of bounds (JS `arr[i]` giving
`undefined`). -/
def JArr.get? : JArr → Nat → Option JValue
  | .nil, _ => none
  | .cons hd _, 0 => some hd
  | .cons _ tl, n + 1 => tl.get? n

/-- Replace the element at an index (in-range by construction at call sites);
out of range leaves the Sequence unchanged. -/
def JArr.set : JArr → Nat → JValue → JArr
  | .nil, _, _ => .nil
  | .cons _ tl, 0, v => .cons v tl
  | .cons hd tl, n + 1, v => .cons hd (tl.set n v)

/-- Append `n` copies of a padding value. -/
def JArr.pad : JArr → Nat → JValue → JArr
  | a, 0, _ => a
  | .nil, n + 1, p => .cons p (JArr.pad .nil n p)
  | .cons hd tl, n + 1, p => .cons hd (tl.pad (n + 1) p)

/-- JS `while (a.length <= idx) a.push(p)`: grow to length `idx + 1` with
padding `p`. -/
def JArr.grow (a : JArr) (idx : Nat) (p : JValue) : JArr :=
  a.pad (idx + 1 - a.len) p

deriving instance DecidableEq for JValue

/-- The keys of a Mapping, in order. -/
def JObj.keys : JObj → List String
  | .nil => []
  | .cons k _ tl => k :: tl.keys

/-- First-match key lookup (JS own-property read). -/
def JObj.lookup : JObj → String → Option JValue
  | .nil, _ => none
  | .cons k v tl, key => if k = key then some v else tl.lookup key

/-- Whether a Mapping has an own key. -/
def JObj.hasKey (fs : JObj) (key : String) : Bool :=
  (fs.lookup key).isSome

/-- JS `obj[key] = v`: overwrite in place when the key exists, append
otherwise. -/
def JObj.setKey : JObj → String → JValue → JObj
  | .nil, key, v => .cons key v .nil
  | .cons k w tl, key, v =>
      if k = key then .cons k v tl else .cons k w (tl.setKey key v)

/-- Recognise a canonical JS array-index string (`"0"`, `"17"`, ... with no
leading zero): these are the own keys of an array-valued node. -/
def decodeIndex (s : String) : Option Nat :=
  match s.data with
  | [] => none
  | c :: rest =>
      if (c :: rest).all Char.isDigit ∧ (c = '0' → rest = []) then
        some ((c :: rest).foldl (fun n d => 10 * n + (d.toNat - 48)) 0)
      else none

/-- JS `typeof v === 'object' && v !== null` (arrays are objects). -/
def JValue.isObjLike : JValue → Bool
  | .obj _ => true
  | .arr _ => true
  | _ => false

/-- Own-property membership test (`key in node`) at the StructuredData level. -/
def JValue.hasProp : JValue → String → Bool
  | .obj fs, k => fs.hasKey k
  | .arr xs, k => match decodeIndex k with
      | some i => i < xs.len
      | none => false
  | _, _ => false

/-- Own-property read (`node[key]`) at the StructuredData level. -/
def JValue.getProp : JValue → String → Option JValue
  | .obj fs, k => fs.lookup k
  | .arr xs, k => (decodeIndex k).bind xs.get?
  | _, _ => none

/-- Own-property write (`node[key] = w`).  Writing a non-index property onto a
Sequence is invisible to StructuredData and modelled as a no-op; writing past
the end of a Sequence pads with Null (JS holes serialize as null). -/
def JValue.setProp : JValue → String → JValue → JValue
  | .obj fs, k, w => .obj (fs.setKey k w)
  | .arr xs, k, w => match decodeIndex k with
      | some i => .arr ((xs.grow i .null).set i w)
      | none => .arr xs
  | v, _, _ => v

/-- JS falsiness on StructuredData values (`null`, `false`, `0`, `""`). -/
def JValue.jsFalsy : JValue → Bool
  | .null => true
  | .bool b => !b
  | .num n => n == 0
  | .str s => s == ""
  | _ => false

/-! ## Character classes and small text helpers -/

/-- JS regex `\s` restricted to the ASCII whitespace characters (space, tab,
LF, VT, FF, CR).  The engine only ever feeds it document text. -/
def isJsWs (c : Char) : Bool :=
  c = ' ' ∨ c = '\t' ∨ c = '\n' ∨ c = Char.ofNat 11 ∨ c = Char.ofNat 12 ∨ c = '\r'

/-- JS regex `\w`: ASCII letters, digits, underscore. -/
def isWordChar (c : Char) : Bool :=
  ('a' ≤ c ∧ c ≤ 'z') ∨ ('A' ≤ c ∧ c ≤ 'Z') ∨ ('0' ≤ c ∧ c ≤ '9') ∨ c = '_'

/-- The variable-name character class `[\w.\[\]\-]`. -/
def isNameChar (c : Char) : Bool :=
  isWordChar c ∨ c = '.' ∨ c = '[' ∨ c = ']' ∨ c = '-'

/-- JS regex `.` (no `s` flag): everything except line terminators. -/
def isDotChar (c : Char) : Bool :=
  ¬ (c = '\n' ∨ c = '\r')

/-- JS `String.prototype.trim` on a character list. -/
def jsTrim (cs : List Char) : List Char :=
  ((cs.dropWhile isJsWs).reverse.dropWhile isJsWs).reverse

/-- JS `path.split('.')` (splitting on every dot, keeping empty pieces). -/
def splitDots : List Char → List (List Char)
  | [] => [[]]
  | '.' :: rest => [] :: splitDots rest
  | c :: rest =>
      match splitDots rest with
      | [] => [[c]]
      | s :: ss => (c :: s) :: ss

/-- Lower-case a character list (JS `toLowerCase` on the ASCII keys the engine
compares). -/
def toLowerL (cs : List Char) : List Char :=
  cs.map Char.toLower

/-! ## The placeholder matcher

The engine compiles (variableReplacer.ts line 46)
`new RegExp(esc(open) + "\\s*([\\w.\\[\\]\\-]+)\\s*(?:" + esc(sep) + "\\s*(.*?))?\\s*" + esc(close), 'g')`.
Since every configured token is regex-escaped, its matching behaviour is a
function of the raw token triple; `tryMatchAt` is that matcher, with JS
backtracking order made explicit: each quantifier's preferred alternative
first (greedy runs from longest to shortest, the lazy default capture from
shortest to longest, the optional group tried present before absent), first
full success wins. -/

/-- Does `p` occur at offset `i` of `cs`? -/
def startsWithAt (cs : List Char) (i : Nat) (p : List Char) : Bool :=
  p.isPrefixOf (cs.drop i)

/-- Length of the maximal run of `p`-characters at offset `i`. -/
def runLen (p : Char → Bool) (cs : List Char) (i : Nat) : Nat :=
  ((cs.drop i).takeWhile p).length

/-- The slice `cs[i..i+n)`. -/
def sliceAt (cs : List Char) (i n : Nat) : List Char :=
  (cs.drop i).take n

/-- `[n, n-1, ..., 0]`: greedy quantifier backtracking order. -/
def descRange (n : Nat) : List Nat :=
  (List.range (n + 1)).reverse

/-- `[n, n-1, ..., 1]`: greedy `+` backtracking order. -/
def descRange1 (n : Nat) : List Nat :=
  (List.range n).reverse.map (· + 1)

/-- `[0, 1, ..., n]`: lazy quantifier order. -/
def ascRange (n : Nat) : List Nat :=
  List.range (n + 1)

/-- Attempt to match the compiled placeholder pattern at offset `i`.
Returns `(end offset, captured name, captured default)` of the first match in
backtracking order, mirroring the JS regex engine on
`OPEN \s* ([\w.\[\]\-]+) \s* (?: SEP \s* (.*?) )? \s* CLOSE`. -/
def tryMatchAt (O C S : List Char) (cs : List Char) (i : Nat) :
    Option (Nat × List Char × Option (List Char)) :=
  if startsWithAt cs i O then
    let j0 := i + O.length
    (descRange (runLen isJsWs cs j0)).findSome? fun k1 =>
      let j1 := j0 + k1
      (descRange1 (runLen isNameChar cs j1)).findSome? fun n =>
        let name := sliceAt cs j1 n
        let j2 := j1 + n
        (descRange (runLen isJsWs cs j2)).findSome? fun k2 =>
          let j3 := j2 + k2
          let withGroup :=
            if startsWithAt cs j3 S then
              let j4 := j3 + S.length
              (descRange (runLen isJsWs cs j4)).findSome? fun k3 =>
                let j5 := j4 + k3
                (ascRange (runLen isDotChar cs j5)).findSome? fun d =>
                  let j6 := j5 + d
                  (descRange (runLen isJsWs cs j6)).findSome? fun k4 =>
                    let j7 := j6 + k4
                    if startsWithAt cs j7 C then
                      some (j7 + C.length, name, some (sliceAt cs j5 d))
                    else none
            else none
          withGroup <|>
            (descRange (runLen isJsWs cs j3)).findSome? fun k4 =>
              let j7 := j3 + k4
              if startsWithAt cs j7 C then some (j7 + C.length, name, none)
              else none
  else none

/-- One located match: `[start, stop)` span, captured name and default. -/
structure RawMatch where
  start : Nat
  stop : Nat
  name : List Char
  dflt : Option (List Char)
  deriving Repr, DecidableEq

/-- The leftmost match at offset `≥ i` (the JS engine slides the start
position forward until the pattern matches). -/
def nextMatch (O C S : List Char) (cs : List Char) (i : Nat) : Option RawMatch :=
  (List.range (cs.length + 1 - i)).findSome? fun k =>
    (tryMatchAt O C S cs (i + k)).map fun r => ⟨i + k, r.1, r.2.1, r.2.2⟩

/-- All matches, left to right and non-overlapping, each search resuming at
the previous match's end (`lastIndex` semantics of a global regex; the
pattern never matches the empty string because the name capture needs at
least one character, so `stop` strictly increases and `cs.length + 1` steps
of fuel are enough to enumerate every match). -/
def scanGo (O C S : List Char) (cs : List Char) : Nat → Nat → List RawMatch
  | 0, _ => []
  | fuel + 1, i =>
      match nextMatch O C S cs i with
      | none => []
      | some m => m :: scanGo O C S cs fuel m.stop

/-- Every placeholder match of the compiled pattern over `cs`. -/
def scanAll (O C S : List Char) (cs : List Char) : List RawMatch :=
  scanGo O C S cs (cs.length + 1) 0

/-! ## Key Resolver and Path Resolver (variableReplacer.ts) -/

/-- The fixed forbidden key set (extension.ts `FORBIDDEN_KEYS`). -/
def forbiddenKeys : List (List Char) :=
  ["__proto__".data, "constructor".data, "prototype".data]

/-- `findKey(obj, key, caseInsensitive)` (variableReplacer.ts lines 62-88):
fail on non-objects; fail on forbidden names (case-insensitively); exact own
key first; otherwise, when case-insensitive, the first own key with the same
lower-cased form. -/
def findKey (v : JValue) (key : List Char) (ci : Bool) : Option (List Char) :=
  if v.isObjLike then
    if forbiddenKeys.contains (toLowerL key) then none
    else if v.hasProp (String.mk key) then some key
    else if ci then
      match v with
      | .obj fs => ((fs.keys.map String.data).find? fun k => toLowerL k = toLowerL key)
      | _ => none
    else none
  else none

/-- The `^(\w+)\[(\d+)\]$` segment syntax `identifier[index]`
(variableReplacer.ts line 107, frontmatterParser.ts lines 129/180).  `\w+` is
the maximal word-character prefix since `[` is not a word character. -/
def parseArraySeg (seg : List Char) : Option (List Char × Nat) :=
  let prop := seg.takeWhile isWordChar
  match seg.dropWhile isWordChar with
  | '[' :: rest =>
      let digits := rest.takeWhile Char.isDigit
      if prop ≠ [] ∧ digits ≠ [] ∧ rest.dropWhile Char.isDigit = [']'] then
        some (prop, digits.foldl (fun n d => 10 * n + (d.toNat - 48)) 0)
      else none
  | _ => none

/-- One step of the path walk (the body of the `for` loop of `getNestedValue`,
variableReplacer.ts lines 101-127): array-index segments resolve the
identifier, require a Sequence and index into it (absent when the node is not
a Sequence or the index is out of bounds); plain segments resolve and
descend. -/
def stepSeg (v : JValue) (seg : List Char) (ci : Bool) : Option JValue :=
  match parseArraySeg seg with
  | some (prop, idx) =>
      match findKey v prop ci with
      | none => none
      | some fk =>
          match v.getProp (String.mk fk) with
          | some (.arr xs) => xs.get? idx
          | _ => none
  | none =>
      match findKey v seg ci with
      | none => none
      | some fk => v.getProp (String.mk fk)

/-- The walk of `getNestedValue`: `undefined`/`null` short-circuit at the top
of each iteration; a value surviving every segment is returned as-is. -/
def resolveGo (ci : Bool) : List (List Char) → JValue → Option JValue
  | [], v => some v
  | seg :: rest, v =>
      if v = .null then none
      else
        match stepSeg v seg ci with
        | none => none
        | some v1 => resolveGo ci rest v1

/-- `getNestedValue(obj, path, caseInsensitive)` (variableReplacer.ts lines
93-130).  The entry guard `if (!obj) return undefined` is observably subsumed:
a falsy root resolves no segment (and every path has at least one segment). -/
def getNestedValue (obj : JValue) (path : String) (ci : Bool) : Option JValue :=
  resolveGo ci (splitDots path.data) obj

/-! ## Path Mutator (frontmatterParser.ts `setNestedValue`, lines 112-210)

JS mutates the tree in place through a `current` reference; the functional
model threads the mutated child back into its parent.  Mutations performed at
a segment persist even when a later segment aborts (`return`), which the
model reproduces by applying each level's writes before recursing. -/

/-- `MAX_ARRAY_INDEX` (frontmatterParser.ts line 114 / extension.ts). -/
def maxArrayIndex : Nat := 1000

/-- The final-segment assignment (frontmatterParser.ts lines 172-209). -/
def setFinal (cur : JValue) (key : List Char) (value : JValue) : JValue :=
  if forbiddenKeys.contains (toLowerL key) then cur
  else
    match parseArraySeg key with
    | some (prop, idx) =>
        if forbiddenKeys.contains (toLowerL prop) then cur
        else
          -- `if (!(prop in current) || !Array.isArray(current[prop])) current[prop] = []`
          let ensured :=
            match cur.getProp (String.mk prop) with
            | some (.arr _) => cur
            | _ => cur.setProp (String.mk prop) (.arr .nil)
          -- the bounds check runs only after the array was ensured
          if idx > maxArrayIndex then ensured
          else
            let a0 := match ensured.getProp (String.mk prop) with
              | some (.arr xs) => xs
              | _ => JArr.nil   -- a non-index write onto a Sequence: phantom
            ensured.setProp (String.mk prop) (.arr ((a0.grow idx .null).set idx value))
    | none => cur.setProp (String.mk key) value

/-- The segment loop and final assignment of `setNestedValue`. -/
def setGo : JValue → List (List Char) → JValue → JValue
  | cur, [], _ => cur
  | cur, key :: rest, value =>
      if rest = [] then setFinal cur key value
      else
      if forbiddenKeys.contains (toLowerL key) then cur
      else
        match parseArraySeg key with
        | some (prop, idx) =>
            if forbiddenKeys.contains (toLowerL prop) then cur
            else
              let ensured :=
                match cur.getProp (String.mk prop) with
                | some (.arr _) => cur
                | _ => cur.setProp (String.mk prop) (.arr .nil)
              if idx > maxArrayIndex then ensured
              else
                let a0 := match ensured.getProp (String.mk prop) with
                  | some (.arr xs) => xs
                  | _ => JArr.nil
                let a1 := a0.grow idx (.obj .nil)
                -- `if (elem === null || typeof elem !== 'object') elem = {}`
                let elem := match a1.get? idx with
                  | some e => if e.isObjLike then e else .obj .nil
                  | none => .obj .nil
                let child := setGo elem rest value
                ensured.setProp (String.mk prop) (.arr (a1.set idx child))
        | none =>
            -- `if (!(key in current)) current[key] = {}
            --  else if (typeof current[key] !== 'object' || current[key] === null)
            --    current[key] = {}`
            let child0 := match cur.getProp (String.mk key) with
              | some c => if c.isObjLike then c else JValue.obj .nil
              | none => JValue.obj .nil
            let child := setGo child0 rest value
            cur.setProp (String.mk key) child

/-- `setNestedValue(obj, path, value)` (frontmatterParser.ts lines 112-210),
returning the mutated root. -/
def setNestedValue (obj : JValue) (path : String) (value : JValue) : JValue :=
  setGo obj (splitDots path.data) value

/-! ## Configuration and Pattern Compiler (variableReplacer.ts lines 13-57) -/

/-- The engine-relevant configuration fields (`PluginSettings`, extension.ts;
the purely visual fields — notification level, highlight colours — are not
consumed by the engine and are omitted). -/
structure PluginSettings where
  openDelimiter : String
  closeDelimiter : String
  defaultSeparator : String
  missingValueText : String
  supportNestedProperties : Bool
  caseInsensitive : Bool
  arrayJoinSeparator : String
  preserveOriginalOnMissing : Bool

/-- `DEFAULT_SETTINGS` (extension.ts). -/
def defaultSettings : PluginSettings :=
  ⟨"\x7b\x7b", "\x7d\x7d", ":", "[MISSING]", true, false, ", ", false⟩

/-- The characters escaped by `escapeRegex` (variableReplacer.ts line 14):
`. * + ? ^ $ ( ) | [ ] \` and the two braces. -/
def isRegexSpecial (c : Char) : Bool :=
  ".*+?^$\x7b\x7d()|[]\\".data.contains c

/-- `escapeRegex(string)`: prefix every special character with a backslash. -/
def escapeRegex (s : String) : String :=
  String.mk (s.data.foldr (fun c acc =>
    if isRegexSpecial c then '\\' :: c :: acc else c :: acc) [])

/-- The regex source text built from a configured token triple
(variableReplacer.ts line 46). -/
def compiledSource (o c s : String) : String :=
  escapeRegex o ++ "\\s*([\\w.\\[\\]\\-]+)\\s*(?:" ++ escapeRegex s
    ++ "\\s*(.*?))?\\s*" ++ escapeRegex c

/-- The hard-coded fallback pattern's source text
(variableReplacer.ts line 28: `/\{\{\s*([\w.[\]-]+)\s*(?::\s*(.*?))?\s*\}\}/g`). -/
def defaultSource : String :=
  "\\\x7b\\\x7b\\s*([\\w.[\\]-]+)\\s*(?::\\s*(.*?))?\\s*\\\x7d\\\x7d"

/-- The length-validation guard of `getVariablePattern`
(variableReplacer.ts lines 22-26): fall back when any token exceeds 10
characters (and only then — no emptiness or equality check exists). -/
def delimiterTooLong (s : PluginSettings) : Bool :=
  s.openDelimiter.length > 10 || s.closeDelimiter.length > 10
    || s.defaultSeparator.length > 10

/-- The regex source returned by `getVariablePattern` on the cache-less path
(the cache only decides which compiled object is returned; it is modelled
separately below). -/
def getVariablePatternSource (s : PluginSettings) : String :=
  if delimiterTooLong s then defaultSource
  else compiledSource s.openDelimiter s.closeDelimiter s.defaultSeparator

/-- The token triple whose literal-token matcher the returned pattern
implements (escaping makes every configured token literal, and the fallback
pattern is the compiled form of the default tokens, up to an equivalent
spelling of the name character class). -/
def effectiveTokens (s : PluginSettings) : String × String × String :=
  if delimiterTooLong s then ("\x7b\x7b", "\x7d\x7d", ":")
  else (s.openDelimiter, s.closeDelimiter, s.defaultSeparator)

/-- The module-level pattern cache (variableReplacer.ts line 8): the string
key `open|close|sep` plus the token triple the cached `RegExp` was compiled
from. -/
structure PatternCacheEntry where
  key : String
  tokens : String × String × String

/-- The cache key `` `${open}|${close}|${sep}` `` (variableReplacer.ts
line 31). -/
def cacheKeyOf (s : PluginSettings) : String :=
  s.openDelimiter ++ "|" ++ s.closeDelimiter ++ "|" ++ s.defaultSeparator

/-- `getVariablePattern` with its cache (variableReplacer.ts lines 20-50):
fallback bypasses the cache; a key hit returns the cached pattern; otherwise
compile and store.  Returns the tokens governing the returned pattern's
matching, plus the new cache state. -/
def getVariablePatternCached (s : PluginSettings)
    (cache : Option PatternCacheEntry) :
    (String × String × String) × Option PatternCacheEntry :=
  if delimiterTooLong s then (("\x7b\x7b", "\x7d\x7d", ":"), cache)
  else
    let k := cacheKeyOf s
    let fresh := (s.openDelimiter, s.closeDelimiter, s.defaultSeparator)
    match cache with
    | some e => if e.key = k then (e.tokens, some e) else (fresh, some ⟨k, fresh⟩)
    | none => (fresh, some ⟨k, fresh⟩)

/-! ## Value formatting (the replacement callback's conversions) -/

/-- Whether a resolved value counts as present
(`value !== undefined && value !== null && value !== ''`,
variableReplacer.ts line 149). -/
def isPresentVal : JValue → Bool
  | .null => false
  | .str s => s ≠ ""
  | _ => true

mutual

/-- `Array.prototype.join`'s element conversion: null becomes the empty
string, nested arrays join with `","` (JS `String(array)`), objects become
`"[object Object]"`. -/
def joinElemStr : JValue → String
  | .null => ""
  | .bool b => if b then "true" else "false"
  | .num n => toString n
  | .str s => s
  | .arr xs => arrJoinComma xs
  | .obj _ => "[object Object]"

/-- `String(array)` = `array.join(",")`. -/
def arrJoinComma : JArr → String
  | .nil => ""
  | .cons h .nil => joinElemStr h
  | .cons h (.cons h2 t) => joinElemStr h ++ "," ++ arrJoinComma (.cons h2 t)

end

/-- `array.join(sep)` with a configured separator (top level only; nested
arrays always use JS `String(...)`, i.e. `","`). -/
def joinWithSep (sep : String) : JArr → String
  | .nil => ""
  | .cons h .nil => joinElemStr h
  | .cons h (.cons h2 t) => joinElemStr h ++ sep ++ joinWithSep sep (.cons h2 t)

/-- JSON string quoting (the escapes relevant to StructuredData text). -/
def jsonQuoteChar (c : Char) : List Char :=
  if c = '"' then ['\\', '"']
  else if c = '\\' then ['\\', '\\']
  else if c = '\n' then ['\\', 'n']
  else if c = '\r' then ['\\', 'r']
  else if c = '\t' then ['\\', 't']
  else [c]

/-- JSON string literal for `s`. -/
def jsonQuoteStr (s : String) : String :=
  "\"" ++ String.mk (s.data.foldr (fun c a => jsonQuoteChar c ++ a) []) ++ "\""

mutual

/-- `JSON.stringify` on StructuredData (total here: StructuredData has no
cycles or exotic values, so the `catch` branch returning `'[Complex Object]'`
is unreachable). -/
def jsonStringify : JValue → String
  | .null => "null"
  | .bool b => if b then "true" else "false"
  | .num n => toString n
  | .str s => jsonQuoteStr s
  | .arr xs => "[" ++ jsonItems xs ++ "]"
  | .obj fs => "\x7b" ++ jsonFields fs ++ "\x7d"

/-- JSON array items, comma-separated. -/
def jsonItems : JArr → String
  | .nil => ""
  | .cons h .nil => jsonStringify h
  | .cons h (.cons h2 t) => jsonStringify h ++ "," ++ jsonItems (.cons h2 t)

/-- JSON object members, comma-separated. -/
def jsonFields : JObj → String
  | .nil => ""
  | .cons k v .nil => jsonQuoteStr k ++ ":" ++ jsonStringify v
  | .cons k v (.cons k2 v2 t) =>
      jsonQuoteStr k ++ ":" ++ jsonStringify v ++ "," ++ jsonFields (.cons k2 v2 t)

end

/-- Formatting of a present value (variableReplacer.ts lines 151-161):
Sequences join with `arrayJoinSeparator || ', '`, Mappings serialize to JSON,
scalars convert with JS `String(...)`. -/
def formatValue (s : PluginSettings) : JValue → String
  | .arr xs =>
      joinWithSep (if s.arrayJoinSeparator = "" then ", " else s.arrayJoinSeparator) xs
  | .obj fs => jsonStringify (.obj fs)
  | .str t => t
  | .num n => toString n
  | .bool b => if b then "true" else "false"
  | .null => "null"

/-! ## Substitution Engine (`replaceVariables`, variableReplacer.ts 135-176) -/

/-- The variable name of a match: `match[1].trim()`. -/
def varNameOf (m : RawMatch) : String :=
  String.mk (jsTrim m.name)

/-- The not-found/empty branch of the replacement callback (lines 164-172):
a captured default is used verbatim and counts as replaced; otherwise the
match is missing and yields either the original placeholder text or
`missingValueText`. -/
def replacementFallback (s : PluginSettings) (cs : List Char) (m : RawMatch) :
    List Char × Bool :=
  match m.dflt with
  | some d => (d, true)
  | none =>
      (if s.preserveOriginalOnMissing then sliceAt cs m.start (m.stop - m.start)
       else s.missingValueText.data, false)

/-- The replacement callback for one match (lines 145-173).  The returned
flag is `true` when the match increments `replacementCount` and `false` when
it increments `missingCount`. -/
def replacementFor (fm : JValue) (s : PluginSettings) (cs : List Char)
    (m : RawMatch) : List Char × Bool :=
  match getNestedValue fm (varNameOf m) s.caseInsensitive with
  | some v =>
      if isPresentVal v then ((formatValue s v).data, true)
      else replacementFallback s cs m
  | none => replacementFallback s cs m

/-- `text.replace(pattern, callback)` over a match list: keep the text
between matches, substitute each match, and count each match into exactly
one of the two counters.  Returns (text, replacementCount, missingCount). -/
def runReplace (fm : JValue) (s : PluginSettings) (cs : List Char) :
    Nat → List RawMatch → List Char × Nat × Nat
  | pos, [] => (cs.drop pos, 0, 0)
  | pos, m :: ms =>
      let r := replacementFor fm s cs m
      let rest := runReplace fm s cs m.stop ms
      ((cs.take m.start).drop pos ++ r.1 ++ rest.1,
       (if r.2 then 1 else 0) + rest.2.1,
       (if r.2 then 0 else 1) + rest.2.2)

/-- `replaceVariables(text, frontmatter, settings)` →
`(result, replacementCount, missingCount)`. -/
def replaceVariables (text : String) (fm : JValue) (s : PluginSettings) :
    String × Nat × Nat :=
  let cs := text.data
  let t := effectiveTokens s
  let out := runReplace fm s cs 0 (scanAll t.1.data t.2.1.data t.2.2.data cs)
  (String.mk out.1, out.2.1, out.2.2)

/-! ## Document Scanner (`scanDocumentVariables`, variableReplacer.ts
lines 219-281) -/

/-- The scanner's status classification (`'exists' | 'has-default' |
'missing'`). -/
inductive VarStatus where
  | varExists : VarStatus
  | hasDefault : VarStatus
  | missing : VarStatus
  deriving Repr, DecidableEq

/-- One scanner result (`Variable`, extension.ts): name, status, resolved
value, captured default, matched text and position. -/
structure ScannedVariable where
  name : String
  status : VarStatus
  value : Option JValue
  defaultValue : Option String
  fullMatch : String
  line : Nat
  colStart : Nat
  colEnd : Nat

/-- Build the `Variable` record for one match (lines 245-277).  The
character column equals the source's `lastIndexOf('\n')` arithmetic in both
of its branches: it is the number of characters after the last newline
before the match. -/
def mkScanVar (body : List Char) (fm : JValue) (ci : Bool) (fmLines : Nat)
    (m : RawMatch) : ScannedVariable :=
  let n := varNameOf m
  let value := getNestedValue fm n ci
  let status :=
    match value with
    | some v =>
        if isPresentVal v then VarStatus.varExists
        else match m.dflt with
          | some _ => VarStatus.hasDefault
          | none => VarStatus.missing
    | none =>
        match m.dflt with
        | some _ => VarStatus.hasDefault
        | none => VarStatus.missing
  let pre := body.take m.start
  let charPos := (pre.reverse.takeWhile (fun c => c ≠ '\n')).length
  ⟨n, status, value, m.dflt.map String.mk,
    String.mk (sliceAt body m.start (m.stop - m.start)),
    fmLines + pre.count '\n', charPos, charPos + (m.stop - m.start)⟩

/-- The scanner's dedup loop (lines 234-278): a `seen` set of names, first
occurrence kept. -/
def scanLoop (mk : RawMatch → ScannedVariable) :
    List String → List RawMatch → List ScannedVariable
  | _, [] => []
  | seen, m :: ms =>
      if seen.contains (varNameOf m) then scanLoop mk seen ms
      else mk m :: scanLoop mk (varNameOf m :: seen) ms

/-- `scanDocumentVariables(text, frontmatter, frontmatterEnd, settings)`. -/
def scanDocumentVariables (text : String) (fm : JValue) (fmEnd : Nat)
    (s : PluginSettings) : List ScannedVariable :=
  let cs := text.data
  let body := cs.drop fmEnd
  let t := effectiveTokens s
  scanLoop (mkScanVar body fm s.caseInsensitive ((cs.take fmEnd).count '\n')) []
    (scanAll t.1.data t.2.1.data t.2.2.data body)

/-- The same scan without the dedup step: one `Variable` per occurrence, in
text order (the reference against which first-occurrence-wins is stated). -/
def scanOccurrences (text : String) (fm : JValue) (fmEnd : Nat)
    (s : PluginSettings) : List ScannedVariable :=
  let cs := text.data
  let body := cs.drop fmEnd
  let t := effectiveTokens s
  (scanAll t.1.data t.2.1.data t.2.2.data body).map
    (mkScanVar body fm s.caseInsensitive ((cs.take fmEnd).count '\n'))

/-! ## The main.js scanner variant (main.js lines 862-925)

The Obsidian plugin's `scanDocumentVariables` shares the matcher, the
name/default extraction, the status classification and the position
arithmetic with the variableReplacer.ts variant above, but its body-scan
loop pushes a `Variable` for every match: there is no `seen.has(varName)`
check in the loop.  The `seenVarNames` set it builds there is consulted
only by the optional `collectFrontmatterProperties` pass (behind
`showFrontmatterOnlyVariables`), which appends extra records for
frontmatter leaves whose paths did not occur in the body and neither
removes nor merges the body records modelled here. -/

/-- `getNestedValue(obj, path)` of main.js (lines 1414-1448): when
`supportNestedProperties` is off, a single direct `findKey` lookup on the
whole path; otherwise the same dot-path walk as variableReplacer.ts.
`findKey` of main.js (lines 1389-1411) reads `this.settings.caseInsensitive`
itself and is otherwise identical to the variableReplacer.ts `findKey`. -/
def getNestedValueMain (obj : JValue) (path : String) (s : PluginSettings) :
    Option JValue :=
  if s.supportNestedProperties then
    resolveGo s.caseInsensitive (splitDots path.data) obj
  else
    match findKey obj path.data s.caseInsensitive with
    | some fk => obj.getProp (String.mk fk)
    | none => none

/-- Build the `Variable` record for one match of the main.js loop (lines
879-915): identical to `mkScanVar` except that the value is resolved by the
main.js `getNestedValue`, which reads the settings itself. -/
def mkScanVarMain (body : List Char) (fm : JValue) (s : PluginSettings)
    (fmLines : Nat) (m : RawMatch) : ScannedVariable :=
  let n := varNameOf m
  let value := getNestedValueMain fm n s
  let status :=
    match value with
    | some v =>
        if isPresentVal v then VarStatus.varExists
        else match m.dflt with
          | some _ => VarStatus.hasDefault
          | none => VarStatus.missing
    | none =>
        match m.dflt with
        | some _ => VarStatus.hasDefault
        | none => VarStatus.missing
  let pre := body.take m.start
  let charPos := (pre.reverse.takeWhile (fun c => c ≠ '\n')).length
  ⟨n, status, value, m.dflt.map String.mk,
    String.mk (sliceAt body m.start (m.stop - m.start)),
    fmLines + pre.count '\n', charPos, charPos + (m.stop - m.start)⟩

/-- `scanDocumentVariables` of main.js (lines 862-925), body-scan part:
every occurrence is pushed, in text order, with no dedup. -/
def scanDocumentVariablesMain (text : String) (fm : JValue) (fmEnd : Nat)
    (s : PluginSettings) : List ScannedVariable :=
  let cs := text.data
  let body := cs.drop fmEnd
  let t := effectiveTokens s
  (scanAll t.1.data t.2.1.data t.2.2.data body).map
    (mkScanVarMain body fm s ((cs.take fmEnd).count '\n'))

/-! ## Frontmatter Codec (frontmatterParser.ts lines 12-106)

The block-locating logic (`parseFrontmatter` / `findFrontmatterEnd` /
`updateFrontmatter`) is modelled from the source.  The YAML engine itself
(js-yaml's `load`/`dump`) is external library code, not part of this
repository's sources; following the spec (§4.7: parse the text strictly
between the markers; serialize as `---\n<dump>---\n`; §4.5: "a compact
structured textual form") it is modelled by an executable single-line
structured-text codec over StructuredData, with line breaks escaped inside
string scalars (so the dumped block interacts with the marker regexes the
same way js-yaml's output does: no content line ever starts with `---`). -/

/-- The opening brace character (U+007B). -/
def lcurl : Char := Char.ofNat 123

/-- The closing brace character (U+007D). -/
def rcurl : Char := Char.ofNat 125

/-- `Modelled from the spec:` decimal digit character. -/
def digitChar (d : Nat) : Char := Char.ofNat (48 + d)

/-- `Modelled from the spec:` decimal rendering of a natural number. -/
def natDigits (n : Nat) : List Char :=
  if n = 0 then ['0'] else (Nat.digits 10 n).reverse.map digitChar

/-- `Modelled from the spec:` the numeric value of a run of digit
characters. -/
def decimalValue (ds : List Char) : Nat :=
  ds.foldl (fun a c => 10 * a + (c.toNat - 48)) 0

/-- `Modelled from the spec:` escaping of one character inside a dumped
string scalar (backslash, quote and line breaks). -/
def escapeChar (c : Char) : List Char :=
  if c = '\\' then ['\\', '\\']
  else if c = '"' then ['\\', '"']
  else if c = '\n' then ['\\', 'n']
  else if c = '\r' then ['\\', 'r']
  else [c]

/-- `Modelled from the spec:` escaping of a dumped string scalar's body. -/
def escapeStr (l : List Char) : List Char :=
  l.foldr (fun c a => escapeChar c ++ a) []

mutual

/-- `Modelled from the spec:` the serializer standing in for js-yaml `dump`
(minus its trailing newline, appended by `dumpDoc`): a deterministic compact
flow rendering of StructuredData. -/
def flowDump : JValue → List Char
  | .null => "null".data
  | .bool b => if b then "true".data else "false".data
  | .num n => if n < 0 then '-' :: natDigits n.natAbs else natDigits n.natAbs
  | .str s => '"' :: (escapeStr s.data ++ ['"'])
  | .arr .nil => ['[', ']']
  | .arr (.cons v tl) => '[' :: (dumpItems (.cons v tl) ++ [']'])
  | .obj .nil => [lcurl, rcurl]
  | .obj (.cons k v tl) => lcurl :: (dumpFields (.cons k v tl) ++ [rcurl])

/-- Sequence items, comma-separated. -/
def dumpItems : JArr → List Char
  | .nil => []
  | .cons v .nil => flowDump v
  | .cons v (.cons v2 tl) => flowDump v ++ ',' :: dumpItems (.cons v2 tl)

/-- Mapping entries `"key":value`, comma-separated. -/
def dumpFields : JObj → List Char
  | .nil => []
  | .cons k v .nil => '"' :: (escapeStr k.data ++ '"' :: ':' :: flowDump v)
  | .cons k v (.cons k2 v2 tl) =>
      '"' :: (escapeStr k.data ++ '"' :: ':' :: flowDump v)
        ++ ',' :: dumpFields (.cons k2 v2 tl)

end

/-- `Modelled from the spec:` js-yaml `dump` output: the flow line plus its
trailing newline. -/
def dumpDoc (v : JValue) : List Char :=
  flowDump v ++ ['\n']

/-- `Modelled from the spec:` un-escaping of one escaped character. -/
def unescapeChar (e : Char) : Option Char :=
  if e = '\\' then some '\\'
  else if e = '"' then some '"'
  else if e = 'n' then some '\n'
  else if e = 'r' then some '\r'
  else none

/-- `Modelled from the spec:` scan a quoted string body up to its closing
quote, resolving escapes.  Returns the body and the remaining input. -/
def scanQString : List Char → Option (List Char × List Char)
  | [] => none
  | c :: rest =>
      if c = '"' then some ([], rest)
      else if c = '\\' then
        match rest with
        | [] => none
        | e :: rest2 =>
            match unescapeChar e with
            | some u => (scanQString rest2).map fun p => (u :: p.1, p.2)
            | none => none
      else (scanQString rest).map fun p => (c :: p.1, p.2)

/-- `Modelled from the spec:` scan a maximal nonempty run of digits. -/
def scanNat (cs : List Char) : Option (Nat × List Char) :=
  let ds := cs.takeWhile Char.isDigit
  if ds.isEmpty then none
  else some (decimalValue ds, cs.dropWhile Char.isDigit)

/-- Literal token helpers for the parser. -/
def nullTok : List Char := "null".data

/-- The literal token `true`. -/
def trueTok : List Char := "true".data

/-- The literal token `false`. -/
def falseTok : List Char := "false".data

mutual

/-- `Modelled from the spec:` the parser standing in for js-yaml `load` on
the dumped flow text: fuel-indexed recursive descent (the fuel only bounds
nesting; `loadYaml` supplies enough for any input). -/
def parseVal : Nat → List Char → Option (JValue × List Char)
  | 0, _ => none
  | fuel + 1, cs =>
      if nullTok.isPrefixOf cs then some (.null, cs.drop nullTok.length)
      else if trueTok.isPrefixOf cs then some (.bool true, cs.drop trueTok.length)
      else if falseTok.isPrefixOf cs then some (.bool false, cs.drop falseTok.length)
      else
        match cs with
        | [] => none
        | c :: rest =>
            if c = '"' then (scanQString rest).map fun p => (.str (String.mk p.1), p.2)
            else if c = '[' then
              match rest with
              | [] => none
              | c1 :: r1 =>
                  if c1 = ']' then some (.arr .nil, r1)
                  else (parseItems fuel (c1 :: r1)).map fun p => (.arr p.1, p.2)
            else if c = lcurl then
              match rest with
              | [] => none
              | c1 :: r1 =>
                  if c1 = rcurl then some (.obj .nil, r1)
                  else (parseFields fuel (c1 :: r1)).map fun p => (.obj p.1, p.2)
            else if c = '-' then
              (scanNat rest).map fun p => (.num (-(p.1 : Int)), p.2)
            else if c.isDigit then
              (scanNat (c :: rest)).map fun p => (.num (p.1 : Int), p.2)
            else none

/-- Sequence items up to the closing `]`. -/
def parseItems : Nat → List Char → Option (JArr × List Char)
  | 0, _ => none
  | fuel + 1, cs =>
      match parseVal fuel cs with
      | none => none
      | some (v, r1) =>
          match r1 with
          | [] => none
          | c :: r2 =>
              if c = ',' then (parseItems fuel r2).map fun p => (.cons v p.1, p.2)
              else if c = ']' then some (.cons v .nil, r2)
              else none

/-- Mapping entries up to the closing brace. -/
def parseFields : Nat → List Char → Option (JObj × List Char)
  | 0, _ => none
  | fuel + 1, cs =>
      match cs with
      | [] => none
      | c :: rest =>
          if c = '"' then
            match scanQString rest with
            | none => none
            | some (k, r1) =>
                match r1 with
                | [] => none
                | c1 :: r2 =>
                    if c1 = ':' then
                      match parseVal fuel r2 with
                      | none => none
                      | some (v, r3) =>
                          match r3 with
                          | [] => none
                          | c2 :: r4 =>
                              if c2 = ',' then
                                (parseFields fuel r4).map fun p =>
                                  (.cons (String.mk k) v p.1, p.2)
                              else if c2 = rcurl then
                                some (.cons (String.mk k) v .nil, r4)
                              else none
                    else none
          else none

end

/-- `Modelled from the spec:` js-yaml `load` on a dumped document: parse one
value consuming the whole content; anything else is a parse failure (source:
caught and turned into `{}` by callers). -/
def loadYaml (content : List Char) : Option JValue :=
  match parseVal (content.length + 1) content with
  | some (v, []) => some v
  | _ => none

/-- Regex `\r?\n`: consume one line break (CRLF or LF). -/
def eatNl : List Char → Option (List Char)
  | '\r' :: '\n' :: r => some r
  | '\n' :: r => some r
  | _ => none

/-- The empty-frontmatter test `/^---\r?\n---(?:\r?\n|$)/`
(frontmatterParser.ts line 19). -/
def emptyFM (cs : List Char) : Bool :=
  ("---".data).isPrefixOf cs &&
    match eatNl (cs.drop 3) with
    | none => false
    | some r =>
        ("---".data).isPrefixOf r &&
          (let r2 := r.drop 3
           r2.isEmpty || (eatNl r2).isSome)

/-- Does a closing `\r?\n---` start here? -/
def isCloseHere (l : List Char) : Bool :=
  (['\r', '\n', '-', '-', '-']).isPrefixOf l || (['\n', '-', '-', '-']).isPrefixOf l

/-- The non-greedy capture of the block regex (line 25): the shortest
prefix followed by a line break and `---`. -/
def fmCloseSplit (acc : List Char) : List Char → Option (List Char)
  | [] => none
  | c :: rest =>
      if isCloseHere (c :: rest) then some acc.reverse
      else fmCloseSplit (c :: acc) rest

/-- The captured group of `^---\r?\n([\s\S]*?)\r?\n` followed by `---`. -/
def fmContent (cs : List Char) : Option (List Char) :=
  if ("---".data).isPrefixOf cs then
    match eatNl (cs.drop 3) with
    | none => none
    | some r => fmCloseSplit [] r
  else none

/-- `parseFrontmatter(text)` (frontmatterParser.ts lines 12-36): no leading
`---` or an empty/unclosed/unparseable block yields `{}`; a falsy parse
result yields `{}` (`yaml.load(...) || {}`). -/
def parseFrontmatter (text : String) : JValue :=
  let cs := text.data
  if ("---".data).isPrefixOf cs then
    if emptyFM cs then .obj .nil
    else
      match fmContent cs with
      | none => .obj .nil
      | some content =>
          match loadYaml content with
          | none => .obj .nil
          | some v => if v.jsFalsy then .obj .nil else v
  else .obj .nil

/-- The serialized replacement block `` `---\n${yaml.dump(d)}---\n` ``
(frontmatterParser.ts lines 88-89, with `dump` as modelled). -/
def serializeBlock (d : JValue) : String :=
  String.mk ("---\n".data ++ dumpDoc d ++ "---\n".data)

/-! ## Supporting lemmas -/

/-- A path segment naming a forbidden key: as a plain segment, or as the
identifier part of an `identifier[index]` segment. -/
def forbiddenSeg (seg : List Char) : Bool :=
  match parseArraySeg seg with
  | some (p, _) => forbiddenKeys.contains (toLowerL p)
  | none => forbiddenKeys.contains (toLowerL seg)

theorem findKey_forbidden (v : JValue) (key : List Char) (ci : Bool)
    (h : forbiddenKeys.contains (toLowerL key) = true) : findKey v key ci = none := by
  unfold findKey
  split_ifs <;> simp_all

theorem stepSeg_forbidden (seg : List Char) (h : forbiddenSeg seg = true)
    (v : JValue) (ci : Bool) : stepSeg v seg ci = none := by
  unfold forbiddenSeg at h
  unfold stepSeg
  cases hp : parseArraySeg seg with
  | some pr =>
      obtain ⟨p, idx⟩ := pr
      rw [hp] at h
      simp [findKey_forbidden v p ci h]
  | none =>
      rw [hp] at h
      simp [findKey_forbidden v seg ci h]

theorem resolveGo_forbidden : ∀ (segs : List (List Char)) (v : JValue) (ci : Bool),
    (∃ seg ∈ segs, forbiddenSeg seg = true) → resolveGo ci segs v = none := by
  intro segs
  induction segs with
  | nil =>
      intro v ci h
      obtain ⟨seg, hmem, _⟩ := h
      cases hmem
  | cons hd rest ih =>
      intro v ci h
      obtain ⟨seg, hmem, hforb⟩ := h
      unfold resolveGo
      split
      · rfl
      · rcases List.mem_cons.mp hmem with heq | hmem2
        · subst heq
          rw [stepSeg_forbidden seg hforb]
        · cases hstep : stepSeg v hd ci with
          | none => rfl
          | some v1 => exact ih v1 ci ⟨seg, hmem2, hforb⟩

theorem setGo_first_forbidden (root : JValue) (seg : List Char)
    (rest : List (List Char)) (value : JValue) (h : forbiddenSeg seg = true) :
    setGo root (seg :: rest) value = root := by
  unfold forbiddenSeg at h
  unfold setGo
  split
  · -- terminal segment
    unfold setFinal
    by_cases h1 : forbiddenKeys.contains (toLowerL seg) = true
    · rw [if_pos h1]
    · rw [if_neg h1]
      cases hp : parseArraySeg seg with
      | some pr =>
          obtain ⟨p, idx⟩ := pr
          rw [hp] at h
          have hf : forbiddenKeys.contains (toLowerL p) = true := h
          simp [hf]
          intro hmem
          exact absurd (by simpa using hf) hmem
      | none =>
          rw [hp] at h
          exact absurd h h1
  · -- intermediate segment
    by_cases h1 : forbiddenKeys.contains (toLowerL seg) = true
    · rw [if_pos h1]
    · rw [if_neg h1]
      cases hp : parseArraySeg seg with
      | some pr =>
          obtain ⟨p, idx⟩ := pr
          rw [hp] at h
          have hf : forbiddenKeys.contains (toLowerL p) = true := h
          simp [hf]
          intro hmem
          exact absurd (by simpa using hf) hmem
      | none =>
          rw [hp] at h
          exact absurd h h1

/-! ## Claim theorems -/

/-- C1.  Counterexample to the claim as stated: `setNestedValue` on root
`{}` with path `a.__proto__` aborts at the forbidden terminal segment, but
the intermediate segment `a` has already been processed, creating `{a: {}}`
— the root is not left unchanged, so the mutation is not free of partial
effects. -/
theorem setNestedValue_forbidden_partial_effect :
    setNestedValue (.obj .nil) "a.__proto__" (.str "x")
      = .obj (.cons "a" (.obj .nil) .nil)
    ∧ setNestedValue (.obj .nil) "a.__proto__" (.str "x") ≠ .obj .nil := by
  constructor
  · rfl
  · decide

/-- C1 (amended).  For any path containing a forbidden segment
(`__proto__`/`constructor`/`prototype`, case-insensitively, as a plain
segment or as the identifier of an `identifier[index]` segment):
`getNestedValue` returns Absent for every root, and `setNestedValue` aborts
at the forbidden segment without using it — in particular a path whose
*first* segment is forbidden leaves the root entirely unchanged.  (Segments
*before* a later forbidden segment may already have been processed, per the
counterexample.) -/
theorem forbidden_key_guard :
    (∀ (obj : JValue) (path : String) (ci : Bool),
      (∃ seg ∈ splitDots path.data, forbiddenSeg seg = true) →
        getNestedValue obj path ci = none)
    ∧ (∀ (root : JValue) (path : String) (value : JValue)
        (seg : List Char) (rest : List (List Char)),
        splitDots path.data = seg :: rest → forbiddenSeg seg = true →
        setNestedValue root path value = root) := by
  constructor
  · intro obj path ci h
    exact resolveGo_forbidden (splitDots path.data) obj ci h
  · intro root path value seg rest hsplit h
    unfold setNestedValue
    rw [hsplit]
    exact setGo_first_forbidden root seg rest value h

/-- C1 witness: the amended theorem applied at concrete inputs — the path
`a.PROTOTYPE.x` resolves to Absent on a root that has an `a` key, and a
mutation whose first segment is `__Proto__` leaves the root unchanged. -/
theorem forbidden_key_guard_witness :
    getNestedValue (.obj (.cons "a" (.str "v") .nil)) "a.PROTOTYPE.x" true = none
    ∧ setNestedValue (.obj (.cons "a" (.str "v") .nil)) "__Proto__.x" (.num 1)
        = .obj (.cons "a" (.str "v") .nil) :=
  ⟨forbidden_key_guard.1 (.obj (.cons "a" (.str "v") .nil)) "a.PROTOTYPE.x" true
      ⟨"PROTOTYPE".data, by decide⟩,
   forbidden_key_guard.2 (.obj (.cons "a" (.str "v") .nil)) "__Proto__.x" (.num 1)
      "__Proto__".data ["x".data] (by decide) (by decide)⟩

/-- C2.  Counterexample to the claim as stated: `setNestedValue` on root `{}`
with path `a[2000]` ensures an array exists *before* the bounds check, so the
out-of-bound write still mutates the root, replacing the absent `a` with an
empty Sequence. -/
theorem setNestedValue_bigindex_mutates :
    setNestedValue (.obj .nil) "a[2000]" (.str "v")
      = .obj (.cons "a" (.arr .nil) .nil)
    ∧ setNestedValue (.obj .nil) "a[2000]" (.str "v") ≠ .obj .nil := by
  constructor
  · rfl
  · decide

/-- C2 (amended).  `setNestedValue` with a first-segment array index
exceeding 1000: the target Sequence is never grown and the value never
written.  When the identifier already holds a Sequence the root is entirely
unchanged; when it does not (and the segment is not forbidden), the only
mutation is replacing the identifier's value with an *empty* Sequence — the
very mutation of the counterexample. -/
theorem setNestedValue_bigindex_bound :
    (∀ (root : JValue) (path : String) (value : JValue) (seg : List Char)
      (rest : List (List Char)) (p : List Char) (idx : Nat) (xs : JArr),
      splitDots path.data = seg :: rest → parseArraySeg seg = some (p, idx) →
      idx > maxArrayIndex → root.getProp (String.mk p) = some (.arr xs) →
      setNestedValue root path value = root)
    ∧ (∀ (root : JValue) (path : String) (value : JValue) (seg : List Char)
        (rest : List (List Char)) (p : List Char) (idx : Nat),
        splitDots path.data = seg :: rest → parseArraySeg seg = some (p, idx) →
        idx > maxArrayIndex →
        (∀ xs : JArr, root.getProp (String.mk p) ≠ some (.arr xs)) →
        forbiddenKeys.contains (toLowerL seg) = false →
        forbiddenKeys.contains (toLowerL p) = false →
        setNestedValue root path value
          = root.setProp (String.mk p) (.arr .nil)) := by
  constructor
  · intro root path value seg rest p idx xs hsplit hp hidx hget
    unfold setNestedValue
    rw [hsplit]
    unfold setGo
    split
    · unfold setFinal
      by_cases h1 : forbiddenKeys.contains (toLowerL seg) = true
      · rw [if_pos h1]
      · rw [if_neg h1, hp]
        by_cases h2 : forbiddenKeys.contains (toLowerL p) = true
        · simp [h2]
          intro hmem
          exact absurd (by simpa using h2) hmem
        · simp [h2, hget, hidx]
    · by_cases h1 : forbiddenKeys.contains (toLowerL seg) = true
      · rw [if_pos h1]
      · rw [if_neg h1, hp]
        by_cases h2 : forbiddenKeys.contains (toLowerL p) = true
        · simp [h2]
          intro hmem
          exact absurd (by simpa using h2) hmem
        · simp [h2, hget, hidx]
  · intro root path value seg rest p idx hsplit hp hidx hne hseg hprop
    have h1 : ¬ forbiddenKeys.contains (toLowerL seg) = true :=
      ne_true_of_eq_false hseg
    have h2 : ¬ forbiddenKeys.contains (toLowerL p) = true :=
      ne_true_of_eq_false hprop
    unfold setNestedValue
    rw [hsplit]
    have hens : (match root.getProp (String.mk p) with
        | some (.arr _) => root
        | _ => root.setProp (String.mk p) (.arr .nil))
        = root.setProp (String.mk p) (.arr .nil) := by
      cases hgp : root.getProp (String.mk p) with
      | none => rfl
      | some v =>
          cases v with
          | arr xs => exact absurd hgp (hne xs)
          | null => rfl
          | bool b => rfl
          | num n => rfl
          | str s => rfl
          | obj fs => rfl
    cases rest with
    | nil =>
        unfold setGo
        rw [if_pos rfl]
        unfold setFinal
        rw [if_neg h1, hp]
        simp only [h2, if_false, ite_false]
        simp [hidx]
    | cons r0 rs =>
        unfold setGo
        rw [if_neg (by simp), if_neg h1, hp]
        simp only [h2, if_false, ite_false]
        simp [hidx]

/-- C2 witness: the amended theorem applied at concrete inputs — with an
existing Sequence `a` and index 1001 (terminal in one case, intermediate in
the other instantiation family) nothing changes; with a non-Sequence `a` the
write leaves exactly `a: []`. -/
theorem setNestedValue_bigindex_bound_witness :
    setNestedValue (.obj (.cons "a" (.arr (.cons (.num 1) .nil)) .nil))
        "a[1001].b" (.str "v")
      = .obj (.cons "a" (.arr (.cons (.num 1) .nil)) .nil)
    ∧ setNestedValue (.obj (.cons "a" (.num 5) .nil)) "a[1001]" (.str "v")
        = (JValue.obj (.cons "a" (.num 5) .nil)).setProp "a" (.arr .nil) :=
  ⟨setNestedValue_bigindex_bound.1
      (.obj (.cons "a" (.arr (.cons (.num 1) .nil)) .nil)) "a[1001].b" (.str "v")
      "a[1001]".data ["b".data] "a".data 1001 (.cons (.num 1) .nil)
      (by decide) (by decide) (by decide) (by decide),
   setNestedValue_bigindex_bound.2
      (.obj (.cons "a" (.num 5) .nil)) "a[1001]" (.str "v")
      "a[1001]".data [] "a".data 1001
      (by decide) (by decide) (by decide)
      (fun xs h => JValue.noConfusion (Option.some.inj h))
      (by decide) (by decide)⟩

/-- C3.  The pattern cache is keyed by the string `` `${open}|${close}|${sep}` ``,
which is not injective in the token triple: the configurations
`("a|b","c","")` and `("a","b","c|")` share the key `"a|b|c|"`.  After
compiling for the first configuration, a call under the second receives the
cached pattern of the *first*, and on the text `"a|b x c"` that pattern finds
one match while the pattern recompiled from the second configuration finds
none — the cache changes matching results, contradicting the claim (and the
code's own comment that a hit means "settings haven't changed"). -/
theorem patternCache_key_collision :
    cacheKeyOf ⟨"a|b", "c", "", "[MISSING]", true, false, ", ", false⟩
      = cacheKeyOf ⟨"a", "b", "c|", "[MISSING]", true, false, ", ", false⟩
    ∧ (getVariablePatternCached ⟨"a", "b", "c|", "[MISSING]", true, false, ", ", false⟩
        (getVariablePatternCached ⟨"a|b", "c", "", "[MISSING]", true, false, ", ", false⟩
          none).2).1 = ("a|b", "c", "")
    ∧ ("a|b", "c", "")
        ≠ ("a", "b", "c|")
    ∧ (scanAll "a|b".data "c".data "".data "a|b x c".data).length = 1
    ∧ (scanAll "a".data "b".data "c|".data "a|b x c".data).length = 0 :=
  ⟨rfl, rfl, by decide, rfl, rfl⟩

/-- C4.  Counterexample to the claim as stated: a configuration violating
the invariant through `open = close` (or through an empty token) does *not*
trigger the fallback — the only guard in `getVariablePattern` is the
10-character length check, so the pattern is compiled from the configured
tokens. -/
theorem pattern_fallback_counterexample :
    getVariablePatternSource ⟨"aa", "aa", ":", "[MISSING]", true, false, ", ", false⟩
      = compiledSource "aa" "aa" ":"
    ∧ getVariablePatternSource ⟨"aa", "aa", ":", "[MISSING]", true, false, ", ", false⟩
        ≠ defaultSource :=
  ⟨rfl, by decide⟩

/-- C4 (amended).  The Pattern Compiler falls back to the hard-coded default
pattern exactly when some configured token exceeds 10 characters; whenever
all three tokens are at most 10 characters long — even when one is empty or
the open and close delimiters are equal — it compiles the pattern from the
configured tokens. -/
theorem pattern_fallback_condition (s : PluginSettings) :
    (delimiterTooLong s = true → getVariablePatternSource s = defaultSource)
    ∧ (s.openDelimiter.length ≤ 10 → s.closeDelimiter.length ≤ 10 →
        s.defaultSeparator.length ≤ 10 →
        getVariablePatternSource s
          = compiledSource s.openDelimiter s.closeDelimiter s.defaultSeparator) := by
  constructor
  · intro h
    unfold getVariablePatternSource
    rw [if_pos h]
  · intro h1 h2 h3
    unfold getVariablePatternSource
    rw [if_neg]
    unfold delimiterTooLong
    simp
    omega

/-- C4 witness: an empty open delimiter (invariant-violating, length ≤ 10)
still compiles from the configured tokens, and an 11-character open
delimiter produces the default pattern. -/
theorem pattern_fallback_condition_witness :
    getVariablePatternSource ⟨"", "\x7d\x7d", ":", "[MISSING]", true, false, ", ", false⟩
      = compiledSource "" "\x7d\x7d" ":"
    ∧ getVariablePatternSource
        ⟨"aaaaaaaaaaa", "\x7d\x7d", ":", "[MISSING]", true, false, ", ", false⟩
      = defaultSource :=
  ⟨(pattern_fallback_condition _).2 (by decide) (by decide) (by decide),
   (pattern_fallback_condition _).1 (by decide)⟩

/-- `String.mk` is inverse to `String.data`. -/
theorem String.mk_data (t : String) : String.mk t.data = t := rfl

/-- The first placeholder match the engine's compiled pattern finds in a
text, under a configuration (the scan that drives `replaceVariables`). -/
def firstPlaceholder (s : PluginSettings) (cs : List Char) : Option RawMatch :=
  let t := effectiveTokens s
  nextMatch t.1.data t.2.1.data t.2.2.data cs 0

/-- C9.  A text in which the configured placeholder pattern has no
occurrence is returned unchanged by `replaceVariables`, with both counters
zero. -/
theorem replaceVariables_no_placeholder (text : String) (fm : JValue)
    (s : PluginSettings) (h : firstPlaceholder s text.data = none) :
    replaceVariables text fm s = (text, 0, 0) := by
  unfold firstPlaceholder at h
  unfold replaceVariables
  simp only [scanAll, scanGo, h]
  simp only [runReplace, List.drop_zero]

/-- C9 witness: a concrete text with no placeholder under the default
configuration. -/
theorem replaceVariables_no_placeholder_witness :
    replaceVariables "plain text, no placeholders" (.obj .nil) defaultSettings
      = ("plain text, no placeholders", 0, 0) :=
  replaceVariables_no_placeholder "plain text, no placeholders" (.obj .nil)
    defaultSettings (by decide)

/-- Each processed match increments exactly one of the two counters. -/
theorem runReplace_counts : ∀ (ms : List RawMatch) (fm : JValue)
    (s : PluginSettings) (cs : List Char) (pos : Nat),
    (runReplace fm s cs pos ms).2.1 + (runReplace fm s cs pos ms).2.2
      = ms.length := by
  intro ms
  induction ms with
  | nil => intro fm s cs pos; rfl
  | cons m rest ih =>
      intro fm s cs pos
      unfold runReplace
      have := ih fm s cs m.stop
      cases hr : (replacementFor fm s cs m).2 <;> simp [hr, this] <;> try omega

/-- C10.  On every call, `replacementCount + missingCount` equals the number
of placeholder matches the compiled pattern finds in the text (each match
increments exactly one counter), and both counters are non-negative (they
are naturals by construction). -/
theorem replaceVariables_counts (text : String) (fm : JValue)
    (s : PluginSettings) :
    (replaceVariables text fm s).2.1 + (replaceVariables text fm s).2.2
      = (scanAll (effectiveTokens s).1.data (effectiveTokens s).2.1.data
          (effectiveTokens s).2.2.data text.data).length
    ∧ 0 ≤ (replaceVariables text fm s).2.1
    ∧ 0 ≤ (replaceVariables text fm s).2.2 :=
  ⟨runReplace_counts _ fm s text.data 0, Nat.zero_le _, Nat.zero_le _⟩

/-- The engine's "missing" test on a resolved value: absent, `null`, or the
empty string (the negation of line 149's presence test). -/
def isMissingVal : Option JValue → Bool
  | none => true
  | some v => !(isPresentVal v)

/-- C7.  A placeholder whose path resolves to Absent, Null or the empty
string and that captured a default value substitutes the default text
verbatim and counts as replaced (not missing); in particular data `{}` with
text `"{{user:guest}}"` yields `"guest"` with `replacementCount = 1` and
`missingCount = 0`. -/
theorem default_value_policy :
    (∀ (fm : JValue) (s : PluginSettings) (cs : List Char) (m : RawMatch)
      (d : List Char),
      isMissingVal (getNestedValue fm (varNameOf m) s.caseInsensitive) = true →
      m.dflt = some d →
      replacementFor fm s cs m = (d, true))
    ∧ replaceVariables "\x7b\x7buser:guest\x7d\x7d" (.obj .nil) defaultSettings
        = ("guest", 1, 0) := by
  constructor
  · intro fm s cs m d hmiss hd
    unfold replacementFor
    unfold isMissingVal at hmiss
    cases hv : getNestedValue fm (varNameOf m) s.caseInsensitive with
    | none =>
        unfold replacementFallback
        rw [hd]
    | some v =>
        rw [hv] at hmiss
        simp only [Bool.not_eq_true'] at hmiss
        simp [hmiss, replacementFallback, hd]
  · decide

/-- C7 witness: the policy applied at a concrete placeholder whose value is
the empty string (treated as missing) with default `guest`. -/
theorem default_value_policy_witness :
    replacementFor (.obj (.cons "user" (.str "") .nil)) defaultSettings []
        ⟨0, 0, "user".data, some "guest".data⟩ = ("guest".data, true)
    ∧ replaceVariables "\x7b\x7buser:guest\x7d\x7d" (.obj .nil) defaultSettings
        = ("guest", 1, 0) :=
  ⟨default_value_policy.1 (.obj (.cons "user" (.str "") .nil)) defaultSettings []
      ⟨0, 0, "user".data, some "guest".data⟩ "guest".data (by decide) rfl,
   default_value_policy.2⟩

/-- Out-of-bounds access on a Sequence is `none`. -/
theorem JArr.get?_len_le : ∀ (xs : JArr) (idx : Nat), xs.len ≤ idx →
    xs.get? idx = none
  | .nil, _, _ => rfl
  | .cons hd tl, 0, h => by unfold JArr.len at h; omega
  | .cons hd tl, n + 1, h => by
      unfold JArr.get?
      exact JArr.get?_len_le tl n (by unfold JArr.len at h; omega)

/-- C8.  An `identifier[index]` segment whose identifier does not resolve to
a Sequence, or whose index is out of the Sequence's bounds, makes the whole
path resolve to Absent — the walk is total, no error and no out-of-bounds
access; in particular `{a: ["x","y"]}` with `{{a[5]}}` is treated as
Missing. -/
theorem array_index_out_of_bounds_absent :
    (∀ (v : JValue) (seg p : List Char) (idx : Nat) (ci : Bool)
      (rest : List (List Char)),
      parseArraySeg seg = some (p, idx) →
      (∀ (fk : List Char) (xs : JArr), findKey v p ci = some fk →
        v.getProp (String.mk fk) = some (.arr xs) → xs.len ≤ idx) →
      resolveGo ci (seg :: rest) v = none)
    ∧ getNestedValue
        (.obj (.cons "a" (.arr (.cons (.str "x") (.cons (.str "y") .nil))) .nil))
        "a[5]" false = none
    ∧ replaceVariables "\x7b\x7ba[5]\x7d\x7d"
        (.obj (.cons "a" (.arr (.cons (.str "x") (.cons (.str "y") .nil))) .nil))
        defaultSettings = ("[MISSING]", 0, 1) := by
  refine ⟨?_, by decide, by decide⟩
  intro v seg p idx ci rest hp hbound
  unfold resolveGo
  split
  · rfl
  · have hstep : stepSeg v seg ci = none := by
      unfold stepSeg
      rw [hp]
      show (match findKey v p ci with
            | none => none
            | some fk =>
                match v.getProp (String.mk fk) with
                | some (.arr xs) => xs.get? idx
                | _ => none) = none
      cases hfk : findKey v p ci with
      | none => rfl
      | some fk =>
          show (match v.getProp (String.mk fk) with
                | some (.arr xs) => xs.get? idx
                | _ => none) = none
          cases hgp : v.getProp (String.mk fk) with
          | none => rfl
          | some w =>
              cases w with
              | arr xs => exact JArr.get?_len_le xs idx (hbound fk xs hfk hgp)
              | null => rfl
              | bool b => rfl
              | num n => rfl
              | str s => rfl
              | obj fs => rfl
    rw [hstep]

/-- C8 witness: the general bound lemma applied at the concrete data
`{a: ["x","y"]}` and segment `a[5]`. -/
theorem array_index_out_of_bounds_absent_witness :
    resolveGo false ["a[5]".data]
      (.obj (.cons "a" (.arr (.cons (.str "x") (.cons (.str "y") .nil))) .nil))
      = none :=
  array_index_out_of_bounds_absent.1
    (.obj (.cons "a" (.arr (.cons (.str "x") (.cons (.str "y") .nil))) .nil))
    "a[5]".data "a".data 5 false [] (by decide)
    (by
      intro fk xs hfk hgp
      have h1 : some ("a".data) = some fk := hfk
      injection h1 with h1e
      subst h1e
      have h2 : some (JValue.arr (JArr.cons (JValue.str "x")
          (JArr.cons (JValue.str "y") JArr.nil))) = some (JValue.arr xs) := hgp
      injection h2 with h2e
      injection h2e with h2f
      subst h2f
      decide)

theorem scanLoop_notin (body : List Char) (fm : JValue) (ci : Bool) (fl : Nat) :
    ∀ (ms : List RawMatch) (seen : List String),
    ∀ v ∈ scanLoop (mkScanVar body fm ci fl) seen ms, v.name ∉ seen := by
  intro ms
  induction ms with
  | nil => intro seen v hv; cases hv
  | cons m rest ih =>
      intro seen v hv
      by_cases hc : seen.contains (varNameOf m) = true
      · rw [scanLoop, if_pos hc] at hv
        exact ih seen v hv
      · rw [scanLoop, if_neg hc] at hv
        rcases List.mem_cons.mp hv with heq | htl
        · subst heq
          show varNameOf m ∉ seen
          simpa using hc
        · intro hmem
          exact ih (varNameOf m :: seen) v htl (List.mem_cons_of_mem _ hmem)

theorem scanLoop_nodup (body : List Char) (fm : JValue) (ci : Bool) (fl : Nat) :
    ∀ (ms : List RawMatch) (seen : List String),
    ((scanLoop (mkScanVar body fm ci fl) seen ms).map (fun v => v.name)).Nodup := by
  intro ms
  induction ms with
  | nil => intro seen; simp [scanLoop]
  | cons m rest ih =>
      intro seen
      by_cases hc : seen.contains (varNameOf m) = true
      · rw [scanLoop, if_pos hc]
        exact ih seen
      · rw [scanLoop, if_neg hc]
        rw [List.map_cons, List.nodup_cons]
        refine ⟨?_, ih (varNameOf m :: seen)⟩
        intro hmem
        obtain ⟨v, hv, hname⟩ := List.mem_map.mp hmem
        have := scanLoop_notin body fm ci fl rest (varNameOf m :: seen) v hv
        exact this (hname ▸ List.mem_cons_self _ _)

theorem scanLoop_find (body : List Char) (fm : JValue) (ci : Bool) (fl : Nat) :
    ∀ (ms : List RawMatch) (seen : List String),
    ∀ v ∈ scanLoop (mkScanVar body fm ci fl) seen ms,
    (ms.map (mkScanVar body fm ci fl)).find? (fun o => o.name == v.name)
      = some v := by
  intro ms
  induction ms with
  | nil => intro seen v hv; cases hv
  | cons m rest ih =>
      intro seen v hv
      by_cases hc : seen.contains (varNameOf m) = true
      · rw [scanLoop, if_pos hc] at hv
        have hne : ((mkScanVar body fm ci fl m).name == v.name) = false := by
          have hnotin := scanLoop_notin body fm ci fl rest seen v hv
          have hin : varNameOf m ∈ seen := by simpa using hc
          simp only [beq_eq_false_iff_ne, ne_eq]
          intro heq
          exact hnotin (heq ▸ hin)
        rw [List.map_cons, List.find?_cons, hne]
        exact ih seen v hv
      · rw [scanLoop, if_neg hc] at hv
        rcases List.mem_cons.mp hv with heq | htl
        · subst heq
          rw [List.map_cons, List.find?_cons, beq_self_eq_true]
        · have hne : ((mkScanVar body fm ci fl m).name == v.name) = false := by
            have hnotin :=
              scanLoop_notin body fm ci fl rest (varNameOf m :: seen) v htl
            simp only [beq_eq_false_iff_ne, ne_eq]
            intro heq
            exact hnotin (heq ▸ List.mem_cons_self _ _)
          rw [List.map_cons, List.find?_cons, hne]
          exact ih (varNameOf m :: seen) v htl

theorem scanLoop_complete (body : List Char) (fm : JValue) (ci : Bool) (fl : Nat) :
    ∀ (ms : List RawMatch) (seen : List String), ∀ m ∈ ms,
    varNameOf m ∈ seen ∨
      ∃ v ∈ scanLoop (mkScanVar body fm ci fl) seen ms, v.name = varNameOf m := by
  intro ms
  induction ms with
  | nil => intro seen m hm; cases hm
  | cons m0 rest ih =>
      intro seen m hm
      by_cases hc : seen.contains (varNameOf m0) = true
      · rcases List.mem_cons.mp hm with heq | htl
        · subst heq
          exact Or.inl (by simpa using hc)
        · rcases ih seen m htl with hin | ⟨v, hv, hname⟩
          · exact Or.inl hin
          · exact Or.inr ⟨v, by rw [scanLoop, if_pos hc]; exact hv, hname⟩
      · rcases List.mem_cons.mp hm with heq | htl
        · subst heq
          refine Or.inr ⟨mkScanVar body fm ci fl m, ?_, rfl⟩
          rw [scanLoop, if_neg hc]
          exact List.mem_cons_self _ _
        · rcases ih (varNameOf m0 :: seen) m htl with hin | ⟨v, hv, hname⟩
          · rcases List.mem_cons.mp hin with heq0 | hseen
            · refine Or.inr ⟨mkScanVar body fm ci fl m0, ?_, heq0.symm ▸ rfl⟩
              rw [scanLoop, if_neg hc]
              exact List.mem_cons_self _ _
            · exact Or.inl hseen
          · refine Or.inr ⟨v, ?_, hname⟩
            rw [scanLoop, if_neg hc]
            exact List.mem_cons_of_mem _ hv

/-- The deduplicating scanner of variableReplacer.ts reports at most one
`Variable` per distinct placeholder name: the reported names are pairwise
distinct; each reported `Variable` is exactly the one built from the first
occurrence (in left-to-right text order) of its name — carrying that
occurrence's status, value, default and position; and every occurrence's
name is represented.  (This is the behaviour the spec mandates; the main.js
scanner, modelled below, omits the dedup.) -/
theorem scanner_dedup_first_wins (text : String) (fm : JValue) (fmEnd : Nat)
    (s : PluginSettings) :
    ((scanDocumentVariables text fm fmEnd s).map (fun v => v.name)).Nodup
    ∧ (∀ v ∈ scanDocumentVariables text fm fmEnd s,
        (scanOccurrences text fm fmEnd s).find? (fun o => o.name == v.name)
          = some v)
    ∧ (∀ o ∈ scanOccurrences text fm fmEnd s,
        ∃ v ∈ scanDocumentVariables text fm fmEnd s, v.name = o.name) := by
  refine ⟨scanLoop_nodup _ _ _ _ _ _, fun v hv => scanLoop_find _ _ _ _ _ _ v hv, ?_⟩
  intro o ho
  obtain ⟨m, hm, rfl⟩ := List.mem_map.mp ho
  rcases scanLoop_complete (text.data.drop fmEnd) fm s.caseInsensitive
      ((text.data.take fmEnd).count '\n')
      (scanAll (effectiveTokens s).1.data (effectiveTokens s).2.1.data
        (effectiveTokens s).2.2.data (text.data.drop fmEnd)) [] m hm with
    hin | ⟨v, hv, hname⟩
  · cases hin
  · exact ⟨v, hv, hname⟩

/-- The dedup lemma applied at a concrete input: in a document whose body
contains `a` twice (second time with a default), the variableReplacer.ts
scan reports exactly the first occurrence's record, and looking its name up
among all occurrences returns that record. -/
theorem scanner_dedup_first_wins_witness :
    (scanOccurrences "---\nx\n---\n\x7b\x7ba\x7d\x7d \x7b\x7ba:d\x7d\x7d"
        (.obj .nil) 10 defaultSettings).find?
      (fun o => o.name == (⟨"a", VarStatus.missing, none, none,
        "\x7b\x7ba\x7d\x7d", 3, 0, 5⟩ : ScannedVariable).name)
      = some ⟨"a", VarStatus.missing, none, none, "\x7b\x7ba\x7d\x7d", 3, 0, 5⟩ :=
  (scanner_dedup_first_wins "---\nx\n---\n\x7b\x7ba\x7d\x7d \x7b\x7ba:d\x7d\x7d"
      (.obj .nil) 10 defaultSettings).2.1
    ⟨"a", VarStatus.missing, none, none, "\x7b\x7ba\x7d\x7d", 3, 0, 5⟩
    (by
      rw [show scanDocumentVariables "---\nx\n---\n\x7b\x7ba\x7d\x7d \x7b\x7ba:d\x7d\x7d"
            (.obj .nil) 10 defaultSettings
          = [⟨"a", VarStatus.missing, none, none, "\x7b\x7ba\x7d\x7d", 3, 0, 5⟩]
        from rfl]
      exact List.mem_singleton.mpr rfl)

/-- C6.  The claim fails for the cited main.js implementation: on a document
whose body contains the placeholder name `a` twice (the second time with a
default), the main.js `scanDocumentVariables` (modelled by
`scanDocumentVariablesMain`) reports two `Variable` records named `a` — its
loop pushes every occurrence and never consults the seen-set it builds — so
the reported names are not pairwise distinct, while the variableReplacer.ts
variant on the same input reports the single first-occurrence record, as
the spec mandates. -/
theorem mainjs_scanner_duplicates :
    ((scanDocumentVariablesMain "---\nx\n---\n\x7b\x7ba\x7d\x7d \x7b\x7ba:d\x7d\x7d"
        (.obj .nil) 10 defaultSettings).map (fun v => v.name)) = ["a", "a"]
    ∧ ¬ ((scanDocumentVariablesMain "---\nx\n---\n\x7b\x7ba\x7d\x7d \x7b\x7ba:d\x7d\x7d"
        (.obj .nil) 10 defaultSettings).map (fun v => v.name)).Nodup
    ∧ ((scanDocumentVariables "---\nx\n---\n\x7b\x7ba\x7d\x7d \x7b\x7ba:d\x7d\x7d"
        (.obj .nil) 10 defaultSettings).map (fun v => v.name)) = ["a"] := by
  refine ⟨rfl, ?_, rfl⟩
  rw [show ((scanDocumentVariablesMain "---\nx\n---\n\x7b\x7ba\x7d\x7d \x7b\x7ba:d\x7d\x7d"
        (.obj .nil) 10 defaultSettings).map (fun v => v.name)) = ["a", "a"] from rfl]
  decide

/-! ## Round-trip lemmas for the modelled codec -/

theorem digitChar_isDigit {d : Nat} (h : d < 10) : (digitChar d).isDigit = true := by
  interval_cases d <;> decide

theorem digitChar_toNat {d : Nat} (h : d < 10) : (digitChar d).toNat - 48 = d := by
  interval_cases d <;> decide

theorem natDigits_all_digits (n : Nat) : ∀ c ∈ natDigits n, c.isDigit = true := by
  unfold natDigits
  split
  · intro c hc
    simp only [List.mem_singleton] at hc
    subst hc
    decide
  · intro c hc
    simp only [List.mem_map, List.mem_reverse] at hc
    obtain ⟨d, hd, rfl⟩ := hc
    exact digitChar_isDigit (Nat.digits_lt_base (by norm_num) hd)

theorem natDigits_ne_nil (n : Nat) : natDigits n ≠ [] := by
  unfold natDigits
  split
  · simp
  · simp only [ne_eq, List.map_eq_nil_iff, List.reverse_eq_nil_iff]
    intro h
    simp_all [Nat.digits_eq_nil_iff_eq_zero]

theorem foldr_digits_ofDigits : ∀ (L : List Nat), (∀ d ∈ L, d < 10) →
    List.foldr (fun d a => 10 * a + ((digitChar d).toNat - 48)) 0 L
      = Nat.ofDigits 10 L := by
  intro L
  induction L with
  | nil => intro _; simp [Nat.ofDigits]
  | cons d L ih =>
      intro h
      rw [List.foldr_cons, ih (fun x hx => h x (List.mem_cons_of_mem _ hx)),
        Nat.ofDigits_cons, digitChar_toNat (h d (List.mem_cons_self _ _))]
      ring

theorem decimalValue_natDigits (n : Nat) : decimalValue (natDigits n) = n := by
  unfold natDigits
  split
  · rename_i h
    subst h
    decide
  · unfold decimalValue
    rw [List.foldl_map, List.foldl_reverse]
    rw [foldr_digits_ofDigits _ (fun d hd => Nat.digits_lt_base (by norm_num) hd)]
    exact Nat.ofDigits_digits 10 n

/-- The head of the remaining input does not continue a `p`-run. -/
def headFails (p : Char → Bool) : List Char → Prop
  | [] => True
  | c :: _ => p c = false

theorem takeWhile_append_all {p : Char → Bool} : ∀ (l r : List Char),
    (∀ c ∈ l, p c = true) → headFails p r →
    (l ++ r).takeWhile p = l ∧ (l ++ r).dropWhile p = r := by
  intro l
  induction l with
  | nil =>
      intro r _ hr
      cases r with
      | nil => exact ⟨rfl, rfl⟩
      | cons c rest =>
          unfold headFails at hr
          constructor
          · simp [List.takeWhile_cons, hr]
          · simp [List.dropWhile_cons, hr]
  | cons c l ih =>
      intro r hl hr
      have hc : p c = true := hl c (List.mem_cons_self _ _)
      have := ih r (fun x hx => hl x (List.mem_cons_of_mem _ hx)) hr
      constructor
      · simp [List.takeWhile_cons, hc, this.1]
      · simp [List.dropWhile_cons, hc, this.2]

theorem scanNat_round (n : Nat) (rest : List Char)
    (h : headFails Char.isDigit rest) :
    scanNat (natDigits n ++ rest) = some (n, rest) := by
  unfold scanNat
  have htd := takeWhile_append_all (natDigits n) rest (natDigits_all_digits n) h
  rw [htd.1, htd.2]
  have hne : (natDigits n).isEmpty = false := by
    cases hnd : natDigits n with
    | nil => exact absurd hnd (natDigits_ne_nil n)
    | cons c tl => rfl
  simp only [hne, Bool.false_eq_true, if_false, ite_false,
    decimalValue_natDigits]

theorem scanQString_round : ∀ (l rest : List Char),
    scanQString (escapeStr l ++ '"' :: rest) = some (l, rest) := by
  intro l
  induction l with
  | nil =>
      intro rest
      show scanQString ('"' :: rest) = some ([], rest)
      unfold scanQString
      simp
  | cons c l ih =>
      intro rest
      have hstep : escapeStr (c :: l) ++ '"' :: rest
          = escapeChar c ++ (escapeStr l ++ '"' :: rest) := by
        show (escapeChar c ++ escapeStr l) ++ '"' :: rest = _
        rw [List.append_assoc]
      rw [hstep]
      by_cases h1 : c = '\\'
      · subst h1
        rw [show escapeChar '\\' = ['\\', '\\'] from rfl]
        show scanQString ('\\' :: '\\' :: (escapeStr l ++ '"' :: rest)) = _
        unfold scanQString
        simp [unescapeChar, ih]
      · by_cases h2 : c = '"'
        · subst h2
          rw [show escapeChar '"' = ['\\', '"'] from rfl]
          show scanQString ('\\' :: '"' :: (escapeStr l ++ '"' :: rest)) = _
          unfold scanQString
          simp [unescapeChar, ih]
        · by_cases h3 : c = '\n'
          · subst h3
            rw [show escapeChar '\n' = ['\\', 'n'] from rfl]
            show scanQString ('\\' :: 'n' :: (escapeStr l ++ '"' :: rest)) = _
            unfold scanQString
            simp [unescapeChar, ih]
          · by_cases h4 : c = '\r'
            · subst h4
              rw [show escapeChar '\r' = ['\\', 'r'] from rfl]
              show scanQString ('\\' :: 'r' :: (escapeStr l ++ '"' :: rest)) = _
              unfold scanQString
              simp [unescapeChar, ih]
            · rw [show escapeChar c = [c] by simp [escapeChar, h1, h2, h3, h4]]
              show scanQString (c :: (escapeStr l ++ '"' :: rest)) = _
              unfold scanQString
              simp [h1, h2, ih]

mutual

/-- Parser fuel needed for a value (each recursive parser call costs one). -/
def fuelOf : JValue → Nat
  | .arr xs => 1 + fuelArr xs
  | .obj fs => 1 + fuelObj fs
  | _ => 1

/-- Parser fuel needed for sequence items. -/
def fuelArr : JArr → Nat
  | .nil => 0
  | .cons v tl => 1 + fuelOf v + fuelArr tl

/-- Parser fuel needed for mapping entries. -/
def fuelObj : JObj → Nat
  | .nil => 0
  | .cons _ v tl => 1 + fuelOf v + fuelObj tl

end

theorem fuelOf_pos (v : JValue) : 1 ≤ fuelOf v := by
  cases v <;> simp [fuelOf]

mutual

theorem fuelOf_le_len : ∀ v : JValue, fuelOf v ≤ (flowDump v).length
  | .null => by simp [fuelOf, flowDump]
  | .bool b => by cases b <;> simp [fuelOf, flowDump]
  | .num n => by
      have h1 : natDigits n.natAbs ≠ [] := natDigits_ne_nil _
      have h2 : 1 ≤ (natDigits n.natAbs).length := by
        cases hnd : natDigits n.natAbs with
        | nil => exact absurd hnd h1
        | cons c tl => simp
      unfold fuelOf flowDump
      split <;> simp [h2]
  | .str s => by simp [fuelOf, flowDump]
  | .arr .nil => by simp [fuelOf, flowDump, fuelArr]
  | .arr (.cons v tl) => by
      have h := fuelArr_le_len (.cons v tl)
      unfold fuelOf flowDump
      simp only [List.length_cons, List.length_append]
      omega
  | .obj .nil => by simp [fuelOf, flowDump, fuelObj]
  | .obj (.cons k v tl) => by
      have h := fuelObj_le_len (.cons k v tl)
      unfold fuelOf flowDump
      simp only [List.length_cons, List.length_append]
      omega

theorem fuelArr_le_len : ∀ xs : JArr, fuelArr xs ≤ (dumpItems xs).length + 1
  | .nil => by simp [fuelArr, dumpItems]
  | .cons v .nil => by
      have h := fuelOf_le_len v
      unfold fuelArr dumpItems
      simp [fuelArr]
      omega
  | .cons v (.cons v2 tl) => by
      have h1 := fuelOf_le_len v
      have h2 := fuelArr_le_len (.cons v2 tl)
      unfold fuelArr dumpItems
      simp only [List.length_append, List.length_cons]
      omega

theorem fuelObj_le_len : ∀ fs : JObj, fuelObj fs ≤ (dumpFields fs).length + 1
  | .nil => by simp [fuelObj, dumpFields]
  | .cons k v .nil => by
      have h := fuelOf_le_len v
      unfold fuelObj dumpFields
      simp [fuelObj]
      omega
  | .cons k v (.cons k2 v2 tl) => by
      have h1 := fuelOf_le_len v
      have h2 := fuelObj_le_len (.cons k2 v2 tl)
      unfold fuelObj dumpFields
      simp only [List.length_append, List.length_cons]
      omega

end

theorem isDigit_ne (c lit : Char) (h : c.isDigit = true)
    (hlit : lit.isDigit = false) : c ≠ lit := by
  intro he
  rw [he, hlit] at h
  cases h

theorem flowDump_head (v : JValue) : ∃ c tl, flowDump v = c :: tl ∧ c ≠ ']' := by
  cases v with
  | null => exact ⟨'n', _, rfl, by decide⟩
  | bool b =>
      cases b with
      | false => exact ⟨'f', _, rfl, by decide⟩
      | true => exact ⟨'t', _, rfl, by decide⟩
  | num n =>
      unfold flowDump
      split
      · exact ⟨'-', _, rfl, by decide⟩
      · cases hnd : natDigits n.natAbs with
        | nil => exact absurd hnd (natDigits_ne_nil _)
        | cons c tl =>
            refine ⟨c, tl, rfl, ?_⟩
            have hc : c.isDigit = true :=
              natDigits_all_digits _ c (hnd ▸ List.mem_cons_self _ _)
            exact isDigit_ne c ']' hc (by decide)
  | str s => exact ⟨'"', _, rfl, by decide⟩
  | arr xs =>
      cases xs with
      | nil => exact ⟨'[', _, rfl, by decide⟩
      | cons v tl => exact ⟨'[', _, rfl, by decide⟩
  | obj fs =>
      cases fs with
      | nil => exact ⟨lcurl, _, rfl, by decide⟩
      | cons k v tl => exact ⟨lcurl, _, rfl, by decide⟩

/-- A character neither LF nor CR. -/
def notNl (c : Char) : Prop := c ≠ '\n' ∧ c ≠ '\r'

theorem escapeChar_no_nl (c : Char) : ∀ x ∈ escapeChar c, notNl x := by
  unfold escapeChar
  split_ifs with h1 h2 h3 h4
  · intro x hx; fin_cases hx <;> exact ⟨by decide, by decide⟩
  · intro x hx; fin_cases hx <;> exact ⟨by decide, by decide⟩
  · intro x hx; fin_cases hx <;> exact ⟨by decide, by decide⟩
  · intro x hx; fin_cases hx <;> exact ⟨by decide, by decide⟩
  · intro x hx
    rw [List.mem_singleton] at hx
    subst hx
    exact ⟨h3, h4⟩

theorem escapeStr_no_nl : ∀ (l : List Char), ∀ x ∈ escapeStr l, notNl x := by
  intro l
  induction l with
  | nil => intro x hx; cases hx
  | cons c l ih =>
      intro x hx
      have hstep : escapeStr (c :: l) = escapeChar c ++ escapeStr l := rfl
      rw [hstep] at hx
      rcases List.mem_append.mp hx with h | h
      · exact escapeChar_no_nl c x h
      · exact ih x h

theorem natDigits_no_nl (n : Nat) : ∀ x ∈ natDigits n, notNl x := by
  intro x hx
  have := natDigits_all_digits n x hx
  exact ⟨isDigit_ne x '\n' this (by decide), isDigit_ne x '\r' this (by decide)⟩

mutual

theorem flowDump_no_nl : ∀ v : JValue, ∀ x ∈ flowDump v, notNl x
  | .null => by intro x hx; fin_cases hx <;> exact ⟨by decide, by decide⟩
  | .bool b => by
      cases b <;> intro x hx <;> fin_cases hx <;> exact ⟨by decide, by decide⟩
  | .num n => by
      intro x hx
      unfold flowDump at hx
      split at hx
      · rcases List.mem_cons.mp hx with h | h
        · subst h; exact ⟨by decide, by decide⟩
        · exact natDigits_no_nl _ x h
      · exact natDigits_no_nl _ x hx
  | .str s => by
      intro x hx
      unfold flowDump at hx
      rcases List.mem_cons.mp hx with h | h
      · subst h; exact ⟨by decide, by decide⟩
      · rcases List.mem_append.mp h with h2 | h2
        · exact escapeStr_no_nl _ x h2
        · rw [List.mem_singleton] at h2
          subst h2
          exact ⟨by decide, by decide⟩
  | .arr .nil => by
      intro x hx
      fin_cases hx <;> exact ⟨by decide, by decide⟩
  | .arr (.cons v tl) => by
      intro x hx
      unfold flowDump at hx
      rcases List.mem_cons.mp hx with h | h
      · subst h; exact ⟨by decide, by decide⟩
      · rcases List.mem_append.mp h with h2 | h2
        · exact dumpItems_no_nl (.cons v tl) x h2
        · rw [List.mem_singleton] at h2
          subst h2
          exact ⟨by decide, by decide⟩
  | .obj .nil => by
      intro x hx
      fin_cases hx <;> exact ⟨by decide, by decide⟩
  | .obj (.cons k v tl) => by
      intro x hx
      unfold flowDump at hx
      rcases List.mem_cons.mp hx with h | h
      · subst h; exact ⟨by decide, by decide⟩
      · rcases List.mem_append.mp h with h2 | h2
        · exact dumpFields_no_nl (.cons k v tl) x h2
        · rw [List.mem_singleton] at h2
          subst h2
          exact ⟨by decide, by decide⟩

theorem dumpItems_no_nl : ∀ xs : JArr, ∀ x ∈ dumpItems xs, notNl x
  | .nil => by intro x hx; cases hx
  | .cons v .nil => by
      intro x hx
      exact flowDump_no_nl v x hx
  | .cons v (.cons v2 tl) => by
      intro x hx
      unfold dumpItems at hx
      rcases List.mem_append.mp hx with h | h
      · exact flowDump_no_nl v x h
      · rcases List.mem_cons.mp h with h2 | h2
        · subst h2; exact ⟨by decide, by decide⟩
        · exact dumpItems_no_nl (.cons v2 tl) x h2

theorem dumpFields_no_nl : ∀ fs : JObj, ∀ x ∈ dumpFields fs, notNl x
  | .nil => by intro x hx; cases hx
  | .cons k v .nil => by
      intro x hx
      unfold dumpFields at hx
      rcases List.mem_cons.mp hx with h | h
      · subst h; exact ⟨by decide, by decide⟩
      · rcases List.mem_append.mp h with h2 | h2
        · exact escapeStr_no_nl _ x h2
        · rcases List.mem_cons.mp h2 with h3 | h3
          · subst h3; exact ⟨by decide, by decide⟩
          · rcases List.mem_cons.mp h3 with h4 | h4
            · subst h4; exact ⟨by decide, by decide⟩
            · exact flowDump_no_nl v x h4
  | .cons k v (.cons k2 v2 tl) => by
      intro x hx
      unfold dumpFields at hx
      rcases List.mem_cons.mp hx with h | h
      · subst h; exact ⟨by decide, by decide⟩
      · rcases List.mem_append.mp h with h2 | h2
        · rcases List.mem_append.mp h2 with h5 | h5
          · exact escapeStr_no_nl _ x h5
          · rcases List.mem_cons.mp h5 with h3 | h3
            · subst h3; exact ⟨by decide, by decide⟩
            · rcases List.mem_cons.mp h3 with h4 | h4
              · subst h4; exact ⟨by decide, by decide⟩
              · exact flowDump_no_nl v x h4
        · rcases List.mem_cons.mp h2 with h3 | h3
          · subst h3; exact ⟨by decide, by decide⟩
          · exact dumpFields_no_nl (.cons k2 v2 tl) x h3

end

theorem headFails_of_head {c : Char} (rest : List Char)
    (h : c.isDigit = false) : headFails Char.isDigit (c :: rest) := h

mutual

theorem parseVal_dump : ∀ (v : JValue) (fuel : Nat) (rest : List Char),
    fuelOf v ≤ fuel → headFails Char.isDigit rest →
    parseVal fuel (flowDump v ++ rest) = some (v, rest)
  | v, 0, rest => by
      intro hf _
      exact absurd (le_trans (fuelOf_pos v) hf) (by omega)
  | .null, fuel + 1, rest => by
      intro _ _
      show parseVal (fuel + 1) ('n' :: 'u' :: 'l' :: 'l' :: rest) = _
      unfold parseVal
      simp [nullTok, List.isPrefixOf]
  | .bool true, fuel + 1, rest => by
      intro _ _
      show parseVal (fuel + 1) ('t' :: 'r' :: 'u' :: 'e' :: rest) = _
      unfold parseVal
      simp [nullTok, trueTok, List.isPrefixOf]
  | .bool false, fuel + 1, rest => by
      intro _ _
      show parseVal (fuel + 1) ('f' :: 'a' :: 'l' :: 's' :: 'e' :: rest) = _
      unfold parseVal
      simp [nullTok, trueTok, falseTok, List.isPrefixOf]
  | .num n, fuel + 1, rest => by
      intro _ hrest
      unfold flowDump
      split
      · rename_i hn
        rw [List.cons_append]
        unfold parseVal
        rw [show ((nullTok.isPrefixOf ('-' :: (natDigits n.natAbs ++ rest)))) = false
          by simp [nullTok, List.isPrefixOf]]
        rw [show ((trueTok.isPrefixOf ('-' :: (natDigits n.natAbs ++ rest)))) = false
          by simp [trueTok, List.isPrefixOf]]
        rw [show ((falseTok.isPrefixOf ('-' :: (natDigits n.natAbs ++ rest)))) = false
          by simp [falseTok, List.isPrefixOf]]
        simp only [Bool.false_eq_true, if_false, ite_false]
        rw [if_neg (by decide : ¬ ('-' : Char) = '"')]
        rw [if_neg (by decide : ¬ ('-' : Char) = '[')]
        rw [if_neg (by decide : ¬ ('-' : Char) = lcurl)]
        simp only [if_true, ite_true]
        rw [scanNat_round n.natAbs rest hrest]
        have heq : (-(n.natAbs : Int)) = n := by omega
        simp only [Option.map_some']
        rw [heq]
      · rename_i hn
        cases hnd : natDigits n.natAbs with
        | nil => exact absurd hnd (natDigits_ne_nil _)
        | cons c tl =>
            have hc : c.isDigit = true :=
              natDigits_all_digits _ c (hnd ▸ List.mem_cons_self _ _)
            rw [List.cons_append]
            unfold parseVal
            rw [show ((nullTok.isPrefixOf (c :: (tl ++ rest)))) = false by
              simp [nullTok, List.isPrefixOf,
                beq_eq_false_iff_ne.mpr (isDigit_ne c 'n' hc (by decide)).symm]]
            rw [show ((trueTok.isPrefixOf (c :: (tl ++ rest)))) = false by
              simp [trueTok, List.isPrefixOf,
                beq_eq_false_iff_ne.mpr (isDigit_ne c 't' hc (by decide)).symm]]
            rw [show ((falseTok.isPrefixOf (c :: (tl ++ rest)))) = false by
              simp [falseTok, List.isPrefixOf,
                beq_eq_false_iff_ne.mpr (isDigit_ne c 'f' hc (by decide)).symm]]
            simp only [Bool.false_eq_true, if_false, ite_false]
            rw [if_neg (isDigit_ne c '"' hc (by decide))]
            rw [if_neg (isDigit_ne c '[' hc (by decide))]
            rw [if_neg (isDigit_ne c lcurl hc (by decide))]
            rw [if_neg (isDigit_ne c '-' hc (by decide))]
            rw [if_pos hc]
            rw [show c :: (tl ++ rest) = natDigits n.natAbs ++ rest by
              rw [hnd, List.cons_append]]
            rw [scanNat_round n.natAbs rest hrest]
            have : ((n.natAbs : Int)) = n := by omega
            simp [this]
  | .str s, fuel + 1, rest => by
      intro _ _
      have hsh : flowDump (.str s) ++ rest
          = '"' :: (escapeStr s.data ++ '"' :: rest) := by
        show ('"' :: (escapeStr s.data ++ ['"'])) ++ rest = _
        simp
      rw [hsh]
      unfold parseVal
      simp [nullTok, trueTok, falseTok, List.isPrefixOf,
        scanQString_round s.data rest, String.mk_data]
  | .arr .nil, fuel + 1, rest => by
      intro _ _
      show parseVal (fuel + 1) ('[' :: ']' :: rest) = _
      unfold parseVal
      simp [nullTok, trueTok, falseTok, List.isPrefixOf, lcurl, Char.ext_iff]
  | .arr (.cons v tl), fuel + 1, rest => by
      intro hf _
      obtain ⟨c1, tl1, hd, hne⟩ := flowDump_head v
      have hitems : dumpItems (.cons v tl) ++ ']' :: rest
          = c1 :: ((dumpItems (.cons v tl)).tail ++ ']' :: rest) := by
        cases tl with
        | nil =>
            show flowDump v ++ _ = c1 :: ((flowDump v).tail ++ _)
            rw [hd]
            rfl
        | cons v2 tl2 =>
            show (flowDump v ++ ',' :: dumpItems (.cons v2 tl2)) ++ _
              = c1 :: ((flowDump v ++ ',' :: dumpItems (.cons v2 tl2)).tail ++ _)
            rw [hd]
            rfl
      have hsh : flowDump (.arr (.cons v tl)) ++ rest
          = '[' :: (dumpItems (.cons v tl) ++ ']' :: rest) := by
        show ('[' :: (dumpItems (.cons v tl) ++ [']'])) ++ rest = _
        simp
      rw [hsh, hitems]
      unfold parseVal
      rw [show ((nullTok.isPrefixOf ('[' :: (c1 :: _)))) = false
        by simp [nullTok, List.isPrefixOf]]
      rw [show ((trueTok.isPrefixOf ('[' :: (c1 :: _)))) = false
        by simp [trueTok, List.isPrefixOf]]
      rw [show ((falseTok.isPrefixOf ('[' :: (c1 :: _)))) = false
        by simp [falseTok, List.isPrefixOf]]
      simp only [Bool.false_eq_true, if_false, ite_false]
      rw [if_neg (by decide : ¬ ('[' : Char) = '"')]
      simp only [if_true, ite_true]
      rw [if_neg hne]
      rw [← hitems]
      rw [parseItems_dump v tl fuel rest (by
        unfold fuelOf at hf
        omega)]
      rfl
  | .obj .nil, fuel + 1, rest => by
      intro _ _
      show parseVal (fuel + 1) (lcurl :: rcurl :: rest) = _
      unfold parseVal
      rw [show ((nullTok.isPrefixOf (lcurl :: rcurl :: rest))) = false
        by simp [nullTok, List.isPrefixOf, lcurl, Char.ext_iff]]
      rw [show ((trueTok.isPrefixOf (lcurl :: rcurl :: rest))) = false
        by simp [trueTok, List.isPrefixOf, lcurl, Char.ext_iff]]
      rw [show ((falseTok.isPrefixOf (lcurl :: rcurl :: rest))) = false
        by simp [falseTok, List.isPrefixOf, lcurl, Char.ext_iff]]
      simp only [Bool.false_eq_true, if_false, ite_false]
      rw [if_neg (by decide : ¬ (lcurl : Char) = '"')]
      rw [if_neg (by decide : ¬ (lcurl : Char) = '[')]
      simp only [if_true, ite_true, eq_self_iff_true]
  | .obj (.cons k v tl), fuel + 1, rest => by
      intro hf _
      have hfields : dumpFields (.cons k v tl) ++ rcurl :: rest
          = '"' :: ((dumpFields (.cons k v tl)).tail ++ rcurl :: rest) := by
        cases tl with
        | nil => rfl
        | cons k2 v2 tl2 => rfl
      have hsh : flowDump (.obj (.cons k v tl)) ++ rest
          = lcurl :: (dumpFields (.cons k v tl) ++ rcurl :: rest) := by
        show (lcurl :: (dumpFields (.cons k v tl) ++ [rcurl])) ++ rest = _
        simp
      rw [hsh, hfields]
      unfold parseVal
      rw [show ((nullTok.isPrefixOf (lcurl :: ('"' :: _)))) = false
        by simp [nullTok, List.isPrefixOf, lcurl, Char.ext_iff]]
      rw [show ((trueTok.isPrefixOf (lcurl :: ('"' :: _)))) = false
        by simp [trueTok, List.isPrefixOf, lcurl, Char.ext_iff]]
      rw [show ((falseTok.isPrefixOf (lcurl :: ('"' :: _)))) = false
        by simp [falseTok, List.isPrefixOf, lcurl, Char.ext_iff]]
      simp only [Bool.false_eq_true, if_false, ite_false]
      rw [if_neg (by decide : ¬ (lcurl : Char) = '"')]
      rw [if_neg (by decide : ¬ (lcurl : Char) = '[')]
      simp only [if_true, ite_true, eq_self_iff_true]
      rw [if_neg (by decide : ¬ ('"' : Char) = rcurl)]
      rw [← hfields]
      rw [parseFields_dump k v tl fuel rest (by
        unfold fuelOf at hf
        omega)]
      rfl

theorem parseItems_dump : ∀ (v : JValue) (tl : JArr) (fuel : Nat)
    (rest : List Char), fuelArr (.cons v tl) ≤ fuel →
    parseItems fuel (dumpItems (.cons v tl) ++ ']' :: rest)
      = some (.cons v tl, rest)
  | v, tl, 0, rest => by
      intro hf
      unfold fuelArr at hf
      have := fuelOf_pos v
      omega
  | v, .nil, fuel + 1, rest => by
      intro hf
      show parseItems (fuel + 1) (flowDump v ++ ']' :: rest) = _
      unfold parseItems
      rw [parseVal_dump v fuel (']' :: rest)
        (by unfold fuelArr at hf; unfold fuelArr at hf; omega)
        (headFails_of_head _ (by decide))]
      simp
  | v, .cons v2 tl2, fuel + 1, rest => by
      intro hf
      have hsh : dumpItems (.cons v (.cons v2 tl2)) ++ ']' :: rest
          = flowDump v ++ ',' :: (dumpItems (.cons v2 tl2) ++ ']' :: rest) := by
        show (flowDump v ++ ',' :: dumpItems (.cons v2 tl2)) ++ ']' :: rest = _
        simp
      rw [hsh]
      unfold parseItems
      rw [parseVal_dump v fuel (',' :: (dumpItems (.cons v2 tl2) ++ ']' :: rest))
        (by unfold fuelArr at hf; omega)
        (headFails_of_head _ (by decide))]
      simp only [if_true, ite_true, eq_self_iff_true]
      rw [parseItems_dump v2 tl2 fuel rest (by unfold fuelArr at hf; omega)]
      rfl

theorem parseFields_dump : ∀ (k : String) (v : JValue) (tl : JObj) (fuel : Nat)
    (rest : List Char), fuelObj (.cons k v tl) ≤ fuel →
    parseFields fuel (dumpFields (.cons k v tl) ++ rcurl :: rest)
      = some (.cons k v tl, rest)
  | k, v, tl, 0, rest => by
      intro hf
      unfold fuelObj at hf
      have := fuelOf_pos v
      omega
  | k, v, .nil, fuel + 1, rest => by
      intro hf
      have hsh : dumpFields (.cons k v .nil) ++ rcurl :: rest
          = '"' :: (escapeStr k.data ++ '"' :: (':' :: (flowDump v ++ rcurl :: rest))) := by
        show ('"' :: (escapeStr k.data ++ '"' :: ':' :: flowDump v)) ++ rcurl :: rest = _
        simp
      rw [hsh]
      unfold parseFields
      simp only [if_true, ite_true, eq_self_iff_true]
      rw [scanQString_round k.data (':' :: (flowDump v ++ rcurl :: rest))]
      simp only [if_true, ite_true, eq_self_iff_true]
      rw [parseVal_dump v fuel (rcurl :: rest)
        (by unfold fuelObj at hf; omega)
        (headFails_of_head _ (by decide))]
      show (if rcurl = ',' then
              Option.map (fun p => (JObj.cons (String.mk k.data) v p.1, p.2))
                (parseFields fuel rest)
            else if rcurl = rcurl then
              some (JObj.cons (String.mk k.data) v JObj.nil, rest)
            else none) = some (JObj.cons k v JObj.nil, rest)
      rw [if_neg (by decide : ¬ (rcurl : Char) = ',')]
      simp only [if_true, ite_true, eq_self_iff_true, String.mk_data]
  | k, v, .cons k2 v2 tl2, fuel + 1, rest => by
      intro hf
      have hsh : dumpFields (.cons k v (.cons k2 v2 tl2)) ++ rcurl :: rest
          = '"' :: (escapeStr k.data ++ '"' :: (':' :: (flowDump v
              ++ ',' :: (dumpFields (.cons k2 v2 tl2) ++ rcurl :: rest)))) := by
        show (('"' :: (escapeStr k.data ++ '"' :: ':' :: flowDump v))
            ++ ',' :: dumpFields (.cons k2 v2 tl2)) ++ rcurl :: rest = _
        simp
      rw [hsh]
      unfold parseFields
      simp only [if_true, ite_true, eq_self_iff_true]
      rw [scanQString_round k.data
        (':' :: (flowDump v ++ ',' :: (dumpFields (.cons k2 v2 tl2) ++ rcurl :: rest)))]
      simp only [if_true, ite_true, eq_self_iff_true]
      rw [parseVal_dump v fuel
        (',' :: (dumpFields (.cons k2 v2 tl2) ++ rcurl :: rest))
        (by unfold fuelObj at hf; omega)
        (headFails_of_head _ (by decide))]
      show (if (',' : Char) = ',' then
              Option.map (fun p => (JObj.cons (String.mk k.data) v p.1, p.2))
                (parseFields fuel (dumpFields (.cons k2 v2 tl2) ++ rcurl :: rest))
            else if (',' : Char) = rcurl then
              some (JObj.cons (String.mk k.data) v JObj.nil,
                dumpFields (.cons k2 v2 tl2) ++ rcurl :: rest)
            else none) = some (JObj.cons k v (.cons k2 v2 tl2), rest)
      simp only [if_true, ite_true, eq_self_iff_true]
      rw [parseFields_dump k2 v2 tl2 fuel rest (by unfold fuelObj at hf; omega)]
      simp [String.mk_data]

end

theorem fmCloseSplit_append : ∀ (flow acc rest : List Char),
    (∀ x ∈ flow, notNl x) →
    fmCloseSplit acc (flow ++ '\n' :: '-' :: '-' :: '-' :: rest)
      = some (acc.reverse ++ flow) := by
  intro flow
  induction flow with
  | nil =>
      intro acc rest _
      simp only [List.nil_append, List.append_nil]
      unfold fmCloseSplit
      rw [if_pos (by simp [isCloseHere, List.isPrefixOf])]
  | cons c flow ih =>
      intro acc rest h
      have hc := h c (List.mem_cons_self _ _)
      show fmCloseSplit acc (c :: (flow ++ '\n' :: '-' :: '-' :: '-' :: rest)) = _
      unfold fmCloseSplit
      rw [if_neg (by
        simp only [isCloseHere, Bool.or_eq_true, not_or]
        constructor
        · simp [List.isPrefixOf, beq_eq_false_iff_ne.mpr (Ne.symm hc.2)]
        · simp [List.isPrefixOf, beq_eq_false_iff_ne.mpr (Ne.symm hc.1)])]
      rw [ih (c :: acc) rest (fun x hx => h x (List.mem_cons_of_mem _ hx))]
      simp

theorem loadYaml_dump (v : JValue) : loadYaml (flowDump v) = some v := by
  unfold loadYaml
  have hfa : parseVal ((flowDump v).length + 1) (flowDump v ++ []) = some (v, []) :=
    parseVal_dump v _ [] (by have := fuelOf_le_len v; omega) trivial
  rw [List.append_nil] at hfa
  rw [hfa]

theorem eatNl_lf (r : List Char) : eatNl ('\n' :: r) = some r := rfl

/-- C5.  Semantic round-trip: serializing any Mapping into a frontmatter
block (`` `---\n${dump(d)}---\n` ``) and parsing it back with
`parseFrontmatter` yields structured data structurally equal to the original
Mapping.  Holds for every Mapping over Null/Scalar/Sequence/Mapping values
(all of `JValue`). -/
theorem frontmatter_roundtrip (fs : JObj) :
    parseFrontmatter (serializeBlock (.obj fs)) = .obj fs := by
  obtain ⟨ftl, hflow⟩ : ∃ tl, flowDump (.obj fs) = lcurl :: tl := by
    cases fs with
    | nil => exact ⟨[rcurl], rfl⟩
    | cons k v tl => exact ⟨dumpFields (.cons k v tl) ++ [rcurl], rfl⟩
  have hnl := flowDump_no_nl (.obj fs)
  unfold serializeBlock parseFrontmatter dumpDoc
  have hdata : (String.mk ("---\n".data
        ++ (flowDump (.obj fs) ++ ['\n']) ++ "---\n".data)).data
      = '-' :: '-' :: '-' :: '\n'
          :: (flowDump (.obj fs) ++ '\n' :: '-' :: '-' :: '-' :: ['\n']) := by
    show ("---\n".data ++ (flowDump (.obj fs) ++ ['\n']) ++ "---\n".data) = _
    simp
  rw [hdata]
  rw [if_pos (by simp [List.isPrefixOf])]
  have hempty : emptyFM ('-' :: '-' :: '-' :: '\n'
      :: (flowDump (.obj fs) ++ '\n' :: '-' :: '-' :: '-' :: ['\n'])) = false := by
    unfold emptyFM
    rw [hflow]
    simp [List.isPrefixOf, eatNl_lf,
      show (('-' == lcurl) = false) from by decide]
  rw [hempty]
  simp only [Bool.false_eq_true, if_false, ite_false]
  have hcontent : fmContent ('-' :: '-' :: '-' :: '\n'
      :: (flowDump (.obj fs) ++ '\n' :: '-' :: '-' :: '-' :: ['\n']))
      = some (flowDump (.obj fs)) := by
    unfold fmContent
    rw [if_pos (by simp [List.isPrefixOf])]
    show (match eatNl ('\n' :: (flowDump (.obj fs)
        ++ '\n' :: '-' :: '-' :: '-' :: ['\n'])) with
      | none => none
      | some r => fmCloseSplit [] r) = some (flowDump (.obj fs))
    rw [eatNl_lf]
    show fmCloseSplit [] (flowDump (.obj fs)
      ++ '\n' :: '-' :: '-' :: '-' :: ['\n']) = _
    rw [fmCloseSplit_append (flowDump (.obj fs)) [] ['\n'] hnl]
    simp
  rw [hcontent]
  show (match loadYaml (flowDump (.obj fs)) with
    | none => JValue.obj .nil
    | some v => if v.jsFalsy then JValue.obj .nil else v) = JValue.obj fs
  rw [loadYaml_dump]
  show (if (JValue.obj fs).jsFalsy then JValue.obj .nil else JValue.obj fs)
    = JValue.obj fs
  rw [if_neg (by simp [JValue.jsFalsy])]
